import Mathlib

/-!
Shallow embedding of MultiQC's sample-identity normalisation and cross-sample
aggregation engine (`multiqc/base_module.py`), together with a verification of
its natural-language specification. Python strings are Lean `String`s, dicts
are insertion-ordered association lists, floats are rationals, and fallible
code returns `Except PyErr`.
-/

/-- Python errors that the embedded fragment can raise. -/
inductive PyErr where
  | emptyListError          -- ValueError: empty list of sample names (line 644)
  | emptySeparator          -- ValueError: empty separator, from str.split
  | keyError (k : String)   -- KeyError on a missing dict key
deriving DecidableEq

def isErr {ε α : Type} : Except ε α → Bool
  | .error _ => true
  | .ok _ => false

/-- Python-style whitespace test used by `str.strip()` (ASCII whitespace). -/
def isPyWhitespace (c : Char) : Bool :=
  c = ' ' || c = '\t' || c = '\n' || c = '\r' || c = '\x0B' || c = '\x0C'

/-- Model of Python `str.strip()`: remove leading and trailing whitespace. -/
def pyStrip (s : String) : String :=
  ⟨((s.data.dropWhile isPyWhitespace).reverse.dropWhile isPyWhitespace).reverse⟩

/-- Model of `os.path.basename`: the part after the last '/'. -/
def basename (s : String) : String :=
  ⟨(s.data.reverse.takeWhile (fun c => c ≠ '/')).reverse⟩

/-- Auxiliary for Python `str.replace`: replace every non-overlapping occurrence
of a nonempty `p` by `r`, scanning left to right. Recursion is structural on the
fuel so that concrete instances reduce; fuel `s.length` is always sufficient
because every step consumes at least one character. -/
def replaceAllAux (p r : List Char) : Nat → List Char → List Char
  | _, [] => []
  | 0, s => s
  | fuel+1, c :: cs =>
    if p.isPrefixOf (c :: cs) then r ++ replaceAllAux p r fuel ((c :: cs).drop p.length)
    else c :: replaceAllAux p r fuel cs

/-- Model of Python `s.replace(p, r)` (all occurrences). An empty pattern
inserts `r` at every position, as Python does. -/
def pyReplace (s p r : String) : String :=
  match p.data with
  | [] => ⟨r.data ++ (s.data.map (fun c => c :: r.data)).flatten⟩
  | _ => ⟨replaceAllAux p.data r.data s.data.length s.data⟩

/-- Number of non-overlapping occurrences of `p` in `s`, counted with the same
left-to-right scan as `replaceAllAux`. -/
def countOccAux (p : List Char) : Nat → List Char → Nat
  | _, [] => 0
  | 0, _ => 0
  | fuel+1, c :: cs =>
    if p.isPrefixOf (c :: cs) then countOccAux p fuel ((c :: cs).drop p.length) + 1
    else countOccAux p fuel cs

def countOcc (p s : String) : Nat := countOccAux p.data s.data.length s.data

/-- Deletion of only the first occurrence of `p` — the behaviour the
specification ascribes to `regex`-type clean rules. -/
def removeFirstOccAux (p : List Char) : List Char → List Char
  | [] => []
  | c :: cs =>
    if p.isPrefixOf (c :: cs) then (c :: cs).drop p.length
    else c :: removeFirstOccAux p cs

def removeFirstOcc (p s : String) : String := ⟨removeFirstOccAux p.data s.data⟩

/-- Substring containment, Python's `in` operator on strings. -/
def occursAux (p : List Char) : List Char → Bool
  | [] => p.isEmpty
  | c :: cs => p.isPrefixOf (c :: cs) || occursAux p cs

def occursIn (p s : String) : Bool := occursAux p.data s.data

/-- Python `s.split(p, 1)[0]` for nonempty `p`: the prefix before the first
occurrence of `p` (the whole string when `p` does not occur). -/
def takeUntilOcc (p : List Char) : List Char → List Char
  | [] => []
  | c :: cs => if p.isPrefixOf (c :: cs) then [] else c :: takeUntilOcc p cs

def pyStartsWith (s p : String) : Bool := p.data.isPrefixOf s.data

def pyEndsWith (s p : String) : Bool := p.data.reverse.isPrefixOf s.data.reverse

/-- Lexicographic (code-point) comparison, Python's `<=` on strings. -/
def charListLe : List Char → List Char → Bool
  | [], _ => true
  | _ :: _, [] => false
  | a :: as, b :: bs =>
    if a.toNat < b.toNat then true
    else if b.toNat < a.toNat then false
    else charListLe as bs

def pyStrLe (a b : String) : Prop := charListLe a.data b.data = true

instance : DecidableRel pyStrLe := fun _ _ => inferInstanceAs (Decidable (_ = true))

/-- Python `sorted` on strings (code-point lexicographic, stable). -/
def pySorted (l : List String) : List String := List.insertionSort pyStrLe l

/-- Lookup in an insertion-ordered association list (Python dict read `d[k]`). -/
def alookup {α : Type} : List (String × α) → String → Option α
  | [], _ => none
  | (k, v) :: rest, c => if k = c then some v else alookup rest c

/-- Python dict write `d[k] = v`: overwrite in place if the key exists, else
append, preserving insertion order. -/
def assocSet {α : Type} : List (String × α) → String → α → List (String × α)
  | [], k, v => [(k, v)]
  | (k', v') :: rest, k, v =>
    if k' = k then (k', v) :: rest else (k', v') :: assocSet rest k v

/-- Python `defaultdict(list)` append `d[k].append(v)`, preserving first-insertion
key order. -/
def bucketAdd {κ α : Type} [DecidableEq κ] : List (κ × List α) → κ → α → List (κ × List α)
  | [], k, v => [(k, [v])]
  | (k', vs) :: rest, k, v =>
    if k' = k then (k', vs ++ [v]) :: rest else (k', vs) :: bucketAdd rest k v

/-- Metric value: Python `ValueT = int | float | str | bool | None`. Numbers are
modelled as rationals. Python `bool` is a subclass of `int`, so booleans count
as numeric (`float(True) = 1.0`) in the `isinstance(val, (int, float))` checks. -/
inductive ValueT where
  | num (q : ℚ)
  | str (s : String)
  | boolean (b : Bool)
  | null
deriving DecidableEq

/-- The `isinstance(val, int) or isinstance(val, float)`-guarded conversion
`float(val)`. -/
def toNum : ValueT → Option ℚ
  | .num q => some q
  | .boolean b => some (if b then 1 else 0)
  | _ => none

/-- One entry of `config.fn_clean_exts` (`CleanPatternT = Union[str, Dict]`).
A bare string is shorthand for a truncate rule; a dict carries `type`,
`pattern` (default `""`) and an optional `module` scope (a bare string module
is normalised to a one-element list by lines 740-741). -/
inductive CleanPatternT where
  | str (s : String)
  | ext (type : Option String) (pattern : Option String) (mods : Option (List String))
deriving DecidableEq

/-- Run-wide flag `config.use_filename_as_sample_name`: either a boolean or a
list of search-pattern keys. -/
inductive UseFilenameFlag where
  | flag (b : Bool)
  | keys (l : List String)
deriving DecidableEq

/-- Modelled from the spec: the process-wide configuration object (the module
`multiqc/config.py` itself is not among the sources; `base_module.py` reads
these attributes, which §6 of the specification lists). Field names follow the
attribute names as accessed in `base_module.py`. `sample_names_replace` and
`generalstats_sample_merge_groups` are ordered dicts, modelled as association
lists; scalar entries of the latter are pre-normalised to one-element lists
(lines 464-465 wrap them on the fly). -/
structure Config where
  use_filename_as_sample_name : UseFilenameFlag
  prepend_dirs : Bool
  prepend_dirs_sep : String
  prepend_dirs_depth : Int
  fn_clean_sample_names : Bool
  fn_clean_exts : List CleanPatternT
  fn_clean_trim : List String
  sample_names_replace : List (String × String)
  sample_names_replace_regex : Bool
  sample_names_replace_exact : Bool
  sample_names_replace_complete : Bool
  generalstats_sample_merge_groups : List (String × List CleanPatternT)

/-- First heuristic of `_clean_fastq_pair`: `re.sub(r"_R1_\d{3}$", "", s)` —
strip a trailing `_R1_NNN` Illumina suffix. The `$`-anchored eight-character
pattern can match at most once, at the very end. -/
def stripIlluminaTail (mate : Char) (s : String) : String :=
  match s.data.reverse with
  | d1 :: d2 :: d3 :: u1 :: m :: r :: u2 :: rest =>
    if d1.isDigit && d2.isDigit && d3.isDigit && u1 = '_' && m = mate && r = 'R' && u2 = '_' then
      ⟨rest.reverse⟩
    else s
  | _ => s

def isSepPunct (c : Char) : Bool := c = '_' || c = '.' || c = '-'

/-- Third heuristic: `re.sub(r"([_.-][rR]?1)?$", "", s)` — strip a trailing
generic mate suffix. The `$`-anchored optional group matches (greedily, at the
leftmost feasible position) a three-character `[_.-][rR]1` suffix, else a
two-character `[_.-]1` suffix, else the empty string (a no-op). -/
def stripGenericMate (mate : Char) (s : String) : String :=
  match s.data.reverse with
  | d :: r :: p :: rest =>
    if d = mate && (r = 'r' || r = 'R') && isSepPunct p then ⟨rest.reverse⟩
    else if d = mate && isSepPunct r then ⟨(p :: rest).reverse⟩
    else s
  | [d, p] => if d = mate && isSepPunct p then "" else s
  | _ => s

/-- `BaseMultiqcModule._clean_fastq_pair` (lines 425-450): try three trimming
heuristics on a pair of cleaned names; the first heuristic under which both
trimmed names agree wins. The middle heuristic `re.sub(r"_R1_", "_", s)` is a
literal global substitution. -/
def _clean_fastq_pair (r1 r2 : String) : Option String :=
  let c1 := stripIlluminaTail '1' r1
  let c2 := stripIlluminaTail '2' r2
  if c1 = c2 then some c1 else
  let c1 := pyReplace r1 "_R1_" "_"
  let c2 := pyReplace r2 "_R2_" "_"
  if c1 = c2 then some c1 else
  let c1 := stripGenericMate '1' r1
  let c2 := stripGenericMate '2' r2
  if c1 = c2 then some c1 else none

/-- Normalise a `fn_clean_exts` entry as lines 731-745 do: a bare string becomes
`{"type": "truncate", "pattern": s}`; a dict's pattern defaults to `""`.
Returns `(type?, pattern, moduleScope?)`. -/
def normPattern : CleanPatternT → Option String × String × Option (List String)
  | .str s => (some "truncate", s, none)
  | .ext t p m => (t, p.getD "", m)

/-- Dispatch on the rule type (lines 747-764). Regex-typed patterns are
embedded for literal (metacharacter-free) patterns, on which
`re.sub(p, "", s)` deletes every non-overlapping occurrence and
`re.search(p, s)` finds `p` itself; these are the only regex shapes the claims
exercise. A truncate rule with an empty pattern raises `ValueError: empty
separator` from `str.split(pattern, 1)`; a missing or unrecognised type is
logged and skipped. -/
def applyCleanType (name : String) (ty : Option String) (pattern : String) :
    Except PyErr String :=
  match ty with
  | some t =>
    if t = "truncate" then
      if pattern = "" then .error .emptySeparator
      else .ok ⟨takeUntilOcc pattern.data name.data⟩
    else if t = "remove" || t = "replace" then .ok (pyReplace name pattern "")
    else if t = "regex" then .ok (pyReplace name pattern "")
    else if t = "regex_keep" then .ok (if occursIn pattern name then pattern else name)
    else .ok name
  | none => .ok name

/-- Application of one clean rule (the body of the `for _ext in fn_clean_exts`
loop, lines 731-764), skipping rules whose module scope excludes the caller's
anchor (lines 739-743). -/
def applyCleanExt (anchor name : String) (pat : CleanPatternT) : Except PyErr String :=
  match normPattern pat with
  | (ty, pattern, mods) =>
    match mods with
    | some l => if l.contains anchor then applyCleanType name ty pattern else .ok name
    | none => applyCleanType name ty pattern

/-- One `fn_clean_trim` step (lines 766-770): strip the string as a suffix if
present, then as a prefix if present (both checks, in that order). Python's
`s[:-len(c)]` is `s[:0] = ""` when `len(c) = 0`, so an empty trim rule empties
the name. -/
def pyTrimRule (name c : String) : String :=
  let name' := if pyEndsWith name c then
      (if c.data.length = 0 then "" else ⟨name.data.take (name.data.length - c.data.length)⟩)
    else name
  if pyStartsWith name' c then ⟨name'.data.drop c.data.length⟩ else name'

/-- One `--replace-names` rule (lines 781-804). Regex search patterns are again
embedded literally: `re.fullmatch(p, s)` is string equality and `re.sub(p, r,
s)` replaces all occurrences; a literal pattern never raises `re.error`. -/
def applyReplaceRule (cfg : Config) (name : String) (rule : String × String) : String :=
  if cfg.sample_names_replace_exact && !cfg.sample_names_replace_regex
      && !(name == rule.1) then name
  else if cfg.sample_names_replace_exact && cfg.sample_names_replace_regex
      && !(name == rule.1) then name
  else if cfg.sample_names_replace_regex then pyReplace name rule.1 rule.2
  else if cfg.sample_names_replace_complete then
    (if occursIn rule.1 name then rule.2 else name)
  else pyReplace name rule.1 rule.2

/-- Path components of the record root, `Path(root).parts`, each
whitespace-stripped and empties dropped (line 717); an absolute path keeps a
leading "/" part. `Path`'s collapsing of `.` components is not modelled (never
exercised here). -/
def pathParts (root : String) : List String :=
  let comps := (root.data.splitOn '/').map (fun l => pyStrip ⟨l⟩)
  let comps := comps.filter (fun d => d ≠ "")
  if root.data.head? = some '/' then "/" :: comps else comps

/-- Python list slicing for the configured depth (lines 718-723):
`dirs[-depth:]` for positive depth (keep the last `depth` components),
`dirs[:(-depth)]` for negative depth (keep the first `-depth`); depth 0 keeps
everything. -/
def sliceDepth (depth : Int) (dirs : List String) : List String :=
  if depth = 0 then dirs
  else if 0 < depth then dirs.drop (dirs.length - depth.toNat)
  else dirs.take (-depth).toNat

/-- Directory prefixing (lines 714-725). -/
def prependDirsStep (cfg : Config) (root : Option String) (name : String) : String :=
  let dirs := match root with
    | none => []
    | some r => if r = "" then [] else pathParts r
  let dirs := sliceDepth cfg.prepend_dirs_depth dirs
  if 0 < dirs.length then
    (String.intercalate cfg.prepend_dirs_sep dirs) ++ cfg.prepend_dirs_sep ++ name
  else name

/-- The filename-override policy check (lines 693-700). -/
def useFilenameForSample (cfg : Config) (spKey : Option String) : Bool :=
  match cfg.use_filename_as_sample_name with
  | .flag b => b
  | .keys l =>
    match spKey with
    | some k => l.contains k
    | none => false

/-- The scalar pipeline of `clean_s_name` up to (and excluding) the whitespace
strip: filename override, basename reduction, directory prefixing, clean rules
and trim rules (lines 691-770). `none` parameters default to the corresponding
`config` fields, as in the source (lines 707-712). -/
def trimBeforeStrip (cfg : Config) (anchor : String) (s_name : String)
    (root filename search_pattern_key : Option String)
    (fn_clean_exts : Option (List CleanPatternT)) (fn_clean_trim : Option (List String))
    (prepend_dirs : Option Bool) : Except PyErr String := do
  let t := match filename with
    | some fn => if useFilenameForSample cfg search_pattern_key then fn else s_name
    | none => s_name
  let t := basename t
  let exts := fn_clean_exts.getD cfg.fn_clean_exts
  let trims := fn_clean_trim.getD cfg.fn_clean_trim
  let pdirs := prepend_dirs.getD cfg.prepend_dirs
  let t := if pdirs then prependDirsStep cfg root t else t
  if cfg.fn_clean_sample_names then do
    let t ← exts.foldlM (applyCleanExt anchor) t
    pure (trims.foldl pyTrimRule t)
  else pure t

/-- Final steps of the scalar pipeline (lines 772-807): strip whitespace,
revert to the original raw input if the result is empty, then apply the hard
replacement rules (guarded by `if config.sample_names_replace:`). -/
def finishName (cfg : Config) (original t : String) : String :=
  let t := pyStrip t
  let t := if t = "" then original else t
  if cfg.sample_names_replace.isEmpty then t
  else cfg.sample_names_replace.foldl (applyReplaceRule cfg) t

/-- The scalar branch of `clean_s_name`. -/
def cleanScalar (cfg : Config) (anchor : String) (s_name : String)
    (root filename search_pattern_key : Option String)
    (fn_clean_exts : Option (List CleanPatternT)) (fn_clean_trim : Option (List String))
    (prepend_dirs : Option Bool) : Except PyErr String :=
  (trimBeforeStrip cfg anchor s_name root filename search_pattern_key fn_clean_exts
      fn_clean_trim prepend_dirs).map
    (finishName cfg s_name)

/-- Input to `clean_s_name`: `Union[str, List[str]]`. -/
inductive SNameInput where
  | scalar (s : String)
  | list (l : List String)
deriving DecidableEq

/-- Combination of the per-element cleaned names for list input (lines
661-672): a single distinct value is returned as-is; a two-element list is
tried as a FASTQ pair; otherwise all cleaned names are joined with `"_"`. -/
def combineCleanNames (cleanNames : List String) : Except PyErr String :=
  if cleanNames.dedup.length = 1 then pure (cleanNames.headD "")
  else
    match cleanNames with
    | [a, b] =>
      match _clean_fastq_pair a b with
      | some m => pure m
      | none => pure (String.intercalate "_" cleanNames)
    | _ => pure (String.intercalate "_" cleanNames)

/-- `BaseMultiqcModule.clean_s_name` (lines 623-807). The `f` argument's
backwards-compatibility unpacking (lines 677-689) only routes `root`,
`filename` and `sp_key`, which this embedding takes directly. -/
def clean_s_name (cfg : Config) (anchor : String) (inp : SNameInput)
    (root filename search_pattern_key : Option String)
    (fn_clean_exts : Option (List CleanPatternT)) (fn_clean_trim : Option (List String))
    (prepend_dirs : Option Bool) : Except PyErr String :=
  match inp with
  | .scalar s =>
    cleanScalar cfg anchor s root filename search_pattern_key fn_clean_exts fn_clean_trim
      prepend_dirs
  | .list l =>
    if l.isEmpty then .error .emptyListError
    else
      (l.mapM (fun sn =>
        cleanScalar cfg anchor sn root filename search_pattern_key fn_clean_exts fn_clean_trim
          prepend_dirs)) >>= combineCleanNames

/-- `BaseMultiqcModule.groups_for_sample`, the scan over the configured
`(label, patterns)` pairs (lines 463-474): the first label whose rule set
changes the name wins, and the group name is the label-stripped name cleaned
again under the default rules; entries with an empty rule list are skipped. -/
def groupsForSampleGo (cfg : Config) (anchor s : String) :
    List (String × List CleanPatternT) → Except PyErr (String × Option String)
  | [] => .ok (s, none)
  | (label, exts) :: rest =>
    if exts.isEmpty then groupsForSampleGo cfg anchor s rest
    else do
      let stripped ← cleanScalar cfg anchor s none none none (some exts) (some []) (some false)
      if stripped = s then groupsForSampleGo cfg anchor s rest
      else do
        let g ← cleanScalar cfg anchor stripped none none none none none none
        pure (g, some label)

/-- `BaseMultiqcModule.groups_for_sample` (lines 452-476). -/
def groups_for_sample (cfg : Config) (anchor s : String) :
    Except PyErr (String × Option String) :=
  if cfg.generalstats_sample_merge_groups.isEmpty then .ok (s, none)
  else groupsForSampleGo cfg anchor s cfg.generalstats_sample_merge_groups

/-- A resolved group member: `(label, display name, original sample name)`. -/
structure GroupMember where
  label : Option String
  display : String
  original : String
deriving DecidableEq

/-- Python `f"{label}"` rendering of an optional label (`None` prints as
`"None"`). -/
def pyShowOptStr : Option String → String
  | none => "None"
  | some s => s

/-- The pure part of `group_samples_names` (lines 488-509) after each sorted
sample has been resolved to a `(label, groupName, originalName)` triple:
bucket by label, re-bucket by group name, and extend display names in
non-trivial groups with the group label. -/
def groupByLabelOf (resolved : List (Option String × String × String)) :
    List (Option String × List (String × String)) :=
  resolved.foldl (fun d lgn => bucketAdd d lgn.1 (lgn.2.1, lgn.2.2)) []

def groupByNameOf (resolved : List (Option String × String × String)) :
    List (String × List (Option String × String)) :=
  (groupByLabelOf resolved).foldl
    (fun d lg => lg.2.foldl (fun d gn => bucketAdd d gn.1 (lg.1, gn.2)) d) []

def buildGroups (resolved : List (Option String × String × String)) :
    List (String × List GroupMember) :=
  (groupByNameOf resolved).map (fun g =>
    (g.1, g.2.map (fun ln =>
      (⟨ln.1, if g.2.length = 1 then g.1 else g.1 ++ " (" ++ pyShowOptStr ln.1 ++ ")",
        ln.2⟩ : GroupMember))))

/-- `BaseMultiqcModule.group_samples_names` (lines 478-509): resolve each
sorted sample, then bucket and label via `buildGroups`. -/
def group_samples_names (cfg : Config) (anchor : String) (samples : List String) :
    Except PyErr (List (String × List GroupMember)) := do
  let resolved ← (pySorted samples).mapM (fun n => do
    let gl ← groups_for_sample cfg anchor n
    pure (gl.2, gl.1, n))
  pure (buildGroups resolved)

/-- Per-sample metric data, `Dict[ColumnKeyT, ValueT]`. -/
def RowData : Type := List (String × ValueT)

instance : DecidableEq RowData := inferInstanceAs (DecidableEq (List (String × ValueT)))

/-- `InputRowT`: a sample name paired with its metric data. -/
structure InputRowT where
  sample : String
  data : RowData
deriving DecidableEq

/-- `SampleGroupingConfig` (lines 71-76); `None` column lists are modelled as
`[]` (both are falsy in the guards that consult them). Extra functions mutate
the merged row's data in place. -/
structure SampleGroupingConfig where
  cols_to_weighted_average : List (String × String)
  cols_to_average : List String
  cols_to_sum : List String
  extra_functions : List (RowData → List GroupMember → RowData)

/-- Python `data_by_sample[s]`: raises `KeyError` when the sample is absent. -/
def lookupSample (dbs : List (String × RowData)) (s : String) : Except PyErr RowData :=
  match alookup dbs s with
  | some rd => .ok rd
  | none => .error (.keyError s)

/-- Python `row[c]`: raises `KeyError` when the column is absent. -/
def lookupCol (rd : RowData) (c : String) : Except PyErr ValueT :=
  match alookup rd c with
  | some v => .ok v
  | none => .error (.keyError c)

/-- One member's contribution to a column's numeric sum: add `float(val)` if
the value is numeric, else leave the accumulator unchanged; a missing sample
or column key raises `KeyError`. -/
def numColStep (dbs : List (String × RowData)) (c : String) (acc : ℚ) (m : GroupMember) :
    Except PyErr ℚ := do
  let rd ← lookupSample dbs m.original
  let v ← lookupCol rd c
  match toNum v with
  | some q => pure (acc + q)
  | none => pure acc

/-- Sum of a column's numeric values over the group members, non-numeric values
contributing nothing — the computation shared by the weight accumulation
(lines 550-555), the plain-average numerator (lines 582-592) and the fresh sum
(lines 599-609). -/
def numericColSum (dbs : List (String × RowData)) (mems : List GroupMember) (c : String) :
    Except PyErr ℚ :=
  mems.foldlM (numColStep dbs c) 0

/-- Keys-to-zero initialisation of `sum_by_col` (lines 547-548). -/
def initWeights (pairs : List (String × String)) : List (String × ℚ) :=
  pairs.foldl (fun d p => assocSet d p.2 0) []

/-- The weight computation (lines 550-555): every weight column's numeric sum
over all members. -/
def computeWeights (dbs : List (String × RowData)) (mems : List GroupMember)
    (pairs : List (String × String)) : Except PyErr (List (String × ℚ)) :=
  (initWeights pairs).mapM (fun kv => (numericColSum dbs mems kv.1).map (fun q => (kv.1, q)))

/-- One member's term of the weighted sum (lines 562-574). Python's `and`
short-circuits, so the weight column is not read when the value column is
non-numeric; an indexed-but-missing key raises. -/
def weightedTerm (dbs : List (String × RowData)) (m : GroupMember) (c wc : String) :
    Except PyErr ℚ := do
  let rd ← lookupSample dbs m.original
  let v ← lookupCol rd c
  match toNum v with
  | none => pure 0
  | some x => do
    let w ← lookupCol rd wc
    match toNum w with
    | none => pure 0
    | some y => pure (x * y)

/-- The weighted-average pass (lines 557-578): for each pair, if the
precomputed weight sum is positive, write the weighted mean into the merged
data; otherwise skip the column. -/
def weightedPass (dbs : List (String × RowData)) (mems : List GroupMember)
    (sumByCol : List (String × ℚ)) :
    List (String × String) → RowData → Except PyErr RowData
  | [], md => pure md
  | (c, wc) :: rest, md => do
    let w ← match alookup sumByCol wc with
      | some q => Except.ok q
      | none => Except.error (.keyError wc)
    if 0 < w then do
      let terms ← mems.mapM (fun m => weightedTerm dbs m c wc)
      weightedPass dbs mems sumByCol rest (assocSet md c (.num (terms.foldl (· + ·) 0 / w)))
    else weightedPass dbs mems sumByCol rest md

/-- The plain-average pass (lines 580-592): always divides by the member
count. -/
def averagePass (dbs : List (String × RowData)) (mems : List GroupMember) :
    List String → RowData → Except PyErr RowData
  | [], md => pure md
  | c :: rest, md => do
    let s ← numericColSum dbs mems c
    averagePass dbs mems rest (assocSet md c (.num (s / (mems.length : ℚ))))

/-- The sum pass (lines 594-609): reuse the precomputed weight sum when the
column was a weight column, else sum afresh. -/
def sumPass (dbs : List (String × RowData)) (mems : List GroupMember)
    (sumByCol : List (String × ℚ)) :
    List String → RowData → Except PyErr RowData
  | [], md => pure md
  | c :: rest, md =>
    match alookup sumByCol c with
    | some q => sumPass dbs mems sumByCol rest (assocSet md c (.num q))
    | none => do
      let s ← numericColSum dbs mems c
      sumPass dbs mems sumByCol rest (assocSet md c (.num s))

/-- The three policy passes building the merged row's data (lines 541-609) in
their fixed order: weighted average, then plain average, then sum, each
writing into the same dict. The source's truthiness guards on the three column
lists are kept (`[]` stands for falsy `None` or empty). -/
def computeMergedData (dbs : List (String × RowData)) (gc : SampleGroupingConfig)
    (mems : List GroupMember) : Except PyErr RowData := do
  let sumByCol ← if gc.cols_to_weighted_average.isEmpty then pure []
    else computeWeights dbs mems gc.cols_to_weighted_average
  let md ← if gc.cols_to_weighted_average.isEmpty then pure ([] : RowData)
    else weightedPass dbs mems sumByCol gc.cols_to_weighted_average []
  let md ← if gc.cols_to_average.isEmpty then pure md
    else averagePass dbs mems gc.cols_to_average md
  if gc.cols_to_sum.isEmpty then pure md
  else sumPass dbs mems sumByCol gc.cols_to_sum md

/-- Per-group output (the loop body of lines 522-619): rename a non-trivial
group that collides with a real sample name, emit a singleton group's row
unchanged (keyed by the group name, with the display name as sample), else the
merged row followed by the member rows. The `g_name is None` branch (lines
524-528) is unreachable because group keys are strings. -/
def mergeGroup (dbs : List (String × RowData)) (gc : SampleGroupingConfig)
    (sampleNames : List String) (g : String) (mems : List GroupMember) :
    Except PyErr (String × List InputRowT) :=
  let g := if 1 < mems.length then
      (if sampleNames.contains g then g ++ " (grouped)" else g)
    else g
  match mems with
  | [m] => do
    let rd ← lookupSample dbs m.original
    pure (g, [⟨m.display, rd⟩])
  | _ => do
    let md ← computeMergedData dbs gc mems
    let md := gc.extra_functions.foldl (fun d f => f d mems) md
    let rows ← mems.mapM (fun m =>
      (lookupSample dbs m.original).map (fun rd => (⟨m.display, rd⟩ : InputRowT)))
    pure (g, ⟨g, md⟩ :: rows)

/-- `BaseMultiqcModule.group_samples_and_average_metrics` (lines 511-621). -/
def group_samples_and_average_metrics (cfg : Config) (anchor : String)
    (dbs : List (String × RowData)) (gc : SampleGroupingConfig) :
    Except PyErr (List (String × List InputRowT)) := do
  let groups ← group_samples_names cfg anchor (dbs.map (fun kv => kv.1))
  groups.foldlM (fun acc gmems =>
    if gmems.2.isEmpty then pure acc
    else do
      let gr ← mergeGroup dbs gc (dbs.map (fun kv => kv.1)) gmems.1 gmems.2
      pure (assocSet acc gr.1 gr.2)) []

/-- The numeric value of member `o`'s column `c`, when present and numeric
(specification-side helper). -/
def numAt (dbs : List (String × RowData)) (o c : String) : Option ℚ :=
  ((alookup dbs o).bind (fun rd => alookup rd c)).bind toNum

/-- Specification-side column sum `Σ numeric(mi[c])`, non-numeric or missing
values counting as 0. -/
def specColSum (dbs : List (String × RowData)) (mems : List GroupMember) (c : String) : ℚ :=
  mems.foldl (fun a m => a + ((numAt dbs m.original c).getD 0)) 0

/-- Specification-side weighted term: the product of the two numeric values, 0
when either side is non-numeric or missing. -/
def specWTerm (dbs : List (String × RowData)) (o c wc : String) : ℚ :=
  match numAt dbs o c, numAt dbs o wc with
  | some x, some y => x * y
  | _, _ => 0

def specWTermSum (dbs : List (String × RowData)) (mems : List GroupMember)
    (c wc : String) : ℚ :=
  mems.foldl (fun a m => a + specWTerm dbs m.original c wc) 0

/-- All column keys the three aggregation policies index into member rows. -/
def referencedCols (gc : SampleGroupingConfig) : List String :=
  gc.cols_to_weighted_average.map (fun p => p.1)
    ++ gc.cols_to_weighted_average.map (fun p => p.2)
    ++ gc.cols_to_average ++ gc.cols_to_sum

/-! General lemmas about the embedding's building blocks. -/

theorem ok_bind {ε α β : Type} (a : α) (f : α → Except ε β) :
    (Except.ok a >>= f) = f a := rfl

theorem error_bind {ε α β : Type} (e : ε) (f : α → Except ε β) :
    ((Except.error e : Except ε α) >>= f) = .error e := rfl

theorem mapM_ok_length {ε α β : Type} {f : α → Except ε β} :
    ∀ {l : List α} {out : List β}, l.mapM f = .ok out → out.length = l.length := by
  intro l
  induction l with
  | nil =>
    intro out h
    rw [List.mapM_nil] at h
    cases h
    rfl
  | cons a t ih =>
    intro out h
    rw [List.mapM_cons] at h
    cases hfa : f a with
    | error e => rw [hfa] at h; simp [ok_bind, error_bind] at h
    | ok b =>
      rw [hfa] at h
      cases hft : t.mapM f with
      | error e => rw [hft] at h; simp [ok_bind, error_bind] at h
      | ok bs =>
        rw [hft] at h
        simp only [ok_bind, error_bind, bind_pure_comp, Except.map_ok] at h
        cases h
        simp [ih hft]

theorem dedup_length_one_iff {l : List String} (h : l ≠ []) :
    l.dedup.length = 1 ↔ ∃ v, ∀ x ∈ l, x = v := by
  constructor
  · intro h1
    obtain ⟨v, hv⟩ := List.length_eq_one.mp h1
    refine ⟨v, fun x hx => ?_⟩
    have hm : x ∈ l.dedup := List.mem_dedup.mpr hx
    rw [hv] at hm
    simpa using hm
  · rintro ⟨v, hv⟩
    have h2 : ∀ x ∈ l.dedup, x = v := fun x hx => hv x (List.mem_dedup.mp hx)
    have hvd : v ∈ l.dedup := by
      rcases l with _ | ⟨a, t⟩
      · exact absurd rfl h
      · have ha : a ∈ (a :: t).dedup := List.mem_dedup.mpr (by simp)
        have hav := h2 a ha
        subst hav
        exact ha
    have hnd : l.dedup.Nodup := l.nodup_dedup
    rcases hdd : l.dedup with _ | ⟨x, _ | ⟨y, rest⟩⟩
    · rw [hdd] at hvd; simp at hvd
    · simp
    · exfalso
      rw [hdd] at hnd h2
      have hx : x = v := h2 x (by simp)
      have hy : y = v := h2 y (by simp)
      rw [List.nodup_cons] at hnd
      exact hnd.1 (by simp [hx, hy])

/-! Concrete configurations used to instantiate the claims. -/

/-- A minimal configuration: cleaning enabled but with no rules, no
replacements, no grouping labels. -/
def trivialConfig : Config :=
  ⟨.flag false, false, "_", 0, true, [], [], [], false, false, false, []⟩

/-- C3 (counterexample): with trivial cleaning, the list input
`["a", "a", "b"]` cleans elementwise to `["a", "a", "b"]`; the results are not
all identical and the list does not have exactly two elements, so the code
joins ALL cleaned results — `"a_a_b"` — repeating the duplicate, not the
joined distinct results `"a_b"` the claim predicts. -/
theorem C3_counterexample :
    clean_s_name trivialConfig "mod" (.list ["a", "a", "b"]) none none none none none none
      = .ok "a_a_b"
    ∧ "a_a_b" ≠ String.intercalate "_" ["a", "b"] := by
  constructor
  · rfl
  · decide

/-- C3 (amended): for a non-empty list input whose elements clean (with
identical parameters) to `cleaned`: if all cleaned results are identical, that
single value is returned; if the input list has exactly two elements whose
cleaned results differ, the FASTQ pair matcher is attempted and its result
returned on a match; otherwise all cleaned results — duplicates included — are
joined with `"_"` in order. -/
theorem C3_list_cleaning (cfg : Config) (anchor : String) (l : List String)
    (root filename spKey : Option String) (extsO : Option (List CleanPatternT))
    (trimsO : Option (List String)) (pdirsO : Option Bool)
    (cleaned : List String) (hne : l ≠ [])
    (hok : l.mapM (fun sn => cleanScalar cfg anchor sn root filename spKey extsO trimsO pdirsO)
      = .ok cleaned) :
    (∀ v, (∀ x ∈ cleaned, x = v) →
      clean_s_name cfg anchor (.list l) root filename spKey extsO trimsO pdirsO = .ok v)
    ∧ (∀ a b m, cleaned = [a, b] → a ≠ b → _clean_fastq_pair a b = some m →
      clean_s_name cfg anchor (.list l) root filename spKey extsO trimsO pdirsO = .ok m)
    ∧ ((¬ ∃ v, ∀ x ∈ cleaned, x = v) →
      (∀ a b, cleaned = [a, b] → _clean_fastq_pair a b = none) →
      clean_s_name cfg anchor (.list l) root filename spKey extsO trimsO pdirsO
        = .ok (String.intercalate "_" cleaned)) := by
  have hni : l.isEmpty = false := by
    cases l with
    | nil => exact absurd rfl hne
    | cons a t => rfl
  have hcne : cleaned ≠ [] := by
    intro hc
    have hlen := mapM_ok_length hok
    rw [hc] at hlen
    cases l with
    | nil => exact hne rfl
    | cons a t => simp at hlen
  have hred : clean_s_name cfg anchor (.list l) root filename spKey extsO trimsO pdirsO
      = combineCleanNames cleaned := by
    simp only [clean_s_name, hni, Bool.false_eq_true, if_false]
    rw [hok, ok_bind]
  refine ⟨?_, ?_, ?_⟩
  · intro v hv
    rw [hred]
    unfold combineCleanNames
    rw [if_pos ((dedup_length_one_iff hcne).mpr ⟨v, hv⟩)]
    rcases cleaned with _ | ⟨c, rest⟩
    · exact absurd rfl hcne
    · have hcv : c = v := hv c (by simp)
      simp [hcv, pure, Except.pure]
  · intro a b m hab hneq hfq
    subst hab
    have hd1 : ¬ ([a, b].dedup.length = 1) := by
      intro h1
      obtain ⟨v, hv⟩ := (dedup_length_one_iff hcne).mp h1
      exact hneq ((hv a (by simp)).trans (hv b (by simp)).symm)
    rw [hred]
    unfold combineCleanNames
    rw [if_neg hd1]
    simp [hfq, pure, Except.pure]
  · intro hnv hfq
    have hd1 : ¬ (cleaned.dedup.length = 1) := by
      intro h1
      exact hnv ((dedup_length_one_iff hcne).mp h1)
    rw [hred]
    unfold combineCleanNames
    rw [if_neg hd1]
    rcases cleaned with _ | ⟨a, _ | ⟨b, _ | ⟨c, rest⟩⟩⟩
    · exact absurd rfl hcne
    · exact absurd ⟨a, by simp⟩ hnv
    · have hfab := hfq a b rfl
      simp [hfab, pure, Except.pure]
    · rfl

/-- C3 (witness): the FASTQ pair branch of `C3_list_cleaning` at the concrete
mate pair `["x_R1_001", "x_R2_001"]` with the trivial configuration. -/
theorem C3_witness :
    clean_s_name trivialConfig "mod" (.list ["x_R1_001", "x_R2_001"]) none none none none
      none none = .ok "x" := by
  have h := (C3_list_cleaning trivialConfig "mod" ["x_R1_001", "x_R2_001"] none none none
    none none none ["x_R1_001", "x_R2_001"] (by decide) (by rfl)).2.1
  exact h "x_R1_001" "x_R2_001" "x" rfl (by decide) (by rfl)

/-- Configuration for the C5 counterexample: a hard replacement rule mapping
`"a"` to the empty string. -/
def replaceToEmptyConfig : Config :=
  { trivialConfig with sample_names_replace := [("a", "")] }

/-- C5 (counterexample): the empty-name revert happens BEFORE the hard
replacement rules, so a replacement rule can still map a non-empty input to
the empty string: cleaning `"a"` under a rule replacing `"a"` by `""` returns
`""`. -/
theorem C5_counterexample :
    clean_s_name replaceToEmptyConfig "mod" (.scalar "a") none none none none none none
      = .ok ""
    ∧ ("a" : String) ≠ "" := by
  exact ⟨rfl, by decide⟩

/-- C5 (amended): if the pipeline up to the whitespace strip trims the working
name to empty, the result reverts to the original raw input; consequently,
when no hard replacement rules are configured, cleaning a non-empty scalar
input never returns the empty string. (A replacement rule applied afterwards
can still produce the empty string.) -/
theorem C5_nonempty_without_replacements (cfg : Config) (anchor s : String)
    (root filename spKey : Option String) (extsO : Option (List CleanPatternT))
    (trimsO : Option (List String)) (pdirsO : Option Bool) (out : String)
    (hrep : cfg.sample_names_replace = []) (hs : s ≠ "")
    (hok : clean_s_name cfg anchor (.scalar s) root filename spKey extsO trimsO pdirsO
      = .ok out) :
    out ≠ "" := by
  have hm : clean_s_name cfg anchor (.scalar s) root filename spKey extsO trimsO pdirsO
      = (trimBeforeStrip cfg anchor s root filename spKey extsO trimsO pdirsO).map
        (finishName cfg s) := rfl
  rw [hm] at hok
  cases htb : trimBeforeStrip cfg anchor s root filename spKey extsO trimsO pdirsO with
  | error e => rw [htb] at hok; simp [Except.map] at hok
  | ok t =>
    rw [htb] at hok
    simp only [Except.map] at hok
    have hout : out = finishName cfg s t := by
      cases hok
      rfl
    subst hout
    unfold finishName
    rw [hrep]
    simp only [List.isEmpty_nil, if_true]
    by_cases hq : pyStrip t = ""
    · simp only [hq, if_pos]
      simpa using hs
    · simp only [if_neg hq]
      exact hq

/-- C5 (witness): `C5_nonempty_without_replacements` instantiated at the
trivial configuration and input `"x"`. -/
theorem C5_witness :
    clean_s_name trivialConfig "mod" (.scalar "x") none none none none none none = .ok "x"
    ∧ ("x" : String) ≠ "" :=
  ⟨rfl, C5_nonempty_without_replacements trivialConfig "mod" "x" none none none none none none
    "x" rfl (by decide) rfl⟩

/-! Lemmas for C6: the code's `regex`-type clean rule performs a global
substitution, so the result's length drops by the pattern length for EVERY
occurrence. -/

theorem isPrefixOf_length_le : ∀ {p s : List Char}, p.isPrefixOf s = true → p.length ≤ s.length
  | [], _, _ => Nat.zero_le _
  | _ :: _, [], h => by simp [List.isPrefixOf] at h
  | a :: as, b :: bs, h => by
    simp only [List.isPrefixOf, Bool.and_eq_true] at h
    simpa using Nat.succ_le_succ (isPrefixOf_length_le h.2)

theorem replaceAll_length {p : List Char} (hp : p ≠ []) :
    ∀ (fuel : Nat) (s : List Char), s.length ≤ fuel →
      (replaceAllAux p [] fuel s).length + p.length * countOccAux p fuel s = s.length := by
  intro fuel
  induction fuel with
  | zero =>
    intro s hs
    rcases s with _ | ⟨c, cs⟩
    · rfl
    · simp at hs
  | succ fuel ih =>
    intro s hs
    rcases s with _ | ⟨c, cs⟩
    · rfl
    · by_cases hpre : p.isPrefixOf (c :: cs) = true
      · have hple : p.length ≤ (c :: cs).length := isPrefixOf_length_le hpre
        have hp1 : 1 ≤ p.length := by
          rcases p with _ | ⟨a, as⟩
          · exact absurd rfl hp
          · simp
        have hfuel : ((c :: cs).drop p.length).length ≤ fuel := by
          simp only [List.length_drop, List.length_cons] at hple hs ⊢
          omega
        have hrec := ih ((c :: cs).drop p.length) hfuel
        have heq1 : replaceAllAux p [] (fuel+1) (c :: cs)
            = replaceAllAux p [] fuel ((c :: cs).drop p.length) := by
          simp [replaceAllAux, hpre]
        have heq2 : countOccAux p (fuel+1) (c :: cs)
            = countOccAux p fuel ((c :: cs).drop p.length) + 1 := by
          simp [countOccAux, hpre]
        rw [heq1, heq2, Nat.mul_add, Nat.mul_one]
        simp only [List.length_drop, List.length_cons] at hple hrec ⊢
        omega
      · have hfuel : cs.length ≤ fuel := by
          simp only [List.length_cons] at hs
          omega
        have hrec := ih cs hfuel
        have heq1 : replaceAllAux p [] (fuel+1) (c :: cs) = c :: replaceAllAux p [] fuel cs := by
          simp [replaceAllAux, hpre]
        have heq2 : countOccAux p (fuel+1) (c :: cs) = countOccAux p fuel cs := by
          simp [countOccAux, hpre]
        rw [heq1, heq2]
        simp only [List.length_cons]
        omega

theorem removeFirst_length {p : List Char} :
    ∀ s : List Char, 1 ≤ countOccAux p s.length s →
      (removeFirstOccAux p s).length + p.length = s.length := by
  intro s
  induction s with
  | nil => intro h; simp [countOccAux] at h
  | cons c cs ih =>
    intro h
    by_cases hpre : p.isPrefixOf (c :: cs) = true
    · have hple : p.length ≤ (c :: cs).length := isPrefixOf_length_le hpre
      have heq : removeFirstOccAux p (c :: cs) = (c :: cs).drop p.length := by
        simp [removeFirstOccAux, hpre]
      rw [heq]
      simp only [List.length_drop, List.length_cons] at hple ⊢
      omega
    · have hcount : countOccAux p (c :: cs).length (c :: cs) = countOccAux p cs.length cs := by
        simp [List.length_cons, countOccAux, hpre]
      rw [hcount] at h
      have hrec := ih h
      have heq : removeFirstOccAux p (c :: cs) = c :: removeFirstOccAux p cs := by
        simp [removeFirstOccAux, hpre]
      rw [heq]
      simp only [List.length_cons]
      omega

/-- Configuration for the C6 counterexample: one `regex`-type clean rule with
(literal) pattern `"X"`. -/
def regexRemoveConfig : Config :=
  { trivialConfig with fn_clean_exts := [.ext (some "regex") (some "X") none] }

/-- C6 (counterexample): the name `"aXbXc"` contains the pattern `"X"` twice;
the code's `regex`-type rule (`re.sub(pattern, "", name)`) deletes BOTH
occurrences, returning `"abc"`, not the `"abXc"` that deleting only the first
match would produce. -/
theorem C6_counterexample :
    clean_s_name regexRemoveConfig "mod" (.scalar "aXbXc") none none none none none none
      = .ok "abc"
    ∧ countOcc "X" "aXbXc" = 2
    ∧ ("abc" : String) ≠ removeFirstOcc "X" "aXbXc" := by
  exact ⟨rfl, rfl, by decide⟩

/-- C6 (amended): a `regex`-type clean rule with a (literal) nonempty pattern
deletes EVERY non-overlapping match, removing `pattern.length` characters per
occurrence; whenever the pattern occurs at least twice the result therefore
differs from deleting only the first match. -/
theorem C6_regex_remove_global (anchor s p t : String) (hp : p ≠ "")
    (ht : applyCleanExt anchor s (.ext (some "regex") (some p) none) = .ok t) :
    t.length + p.length * countOcc p s = s.length
    ∧ (2 ≤ countOcc p s → t ≠ removeFirstOcc p s) := by
  have hpd : p.data ≠ [] := by
    intro h
    apply hp
    cases p with
    | mk d =>
      have hd : d = [] := h
      subst hd
      rfl
  have hteq : t = pyReplace s p "" := by
    have ht2 := ht
    simp [applyCleanExt, normPattern, applyCleanType] at ht2
    exact ht2.symm
  have hrw : pyReplace s p "" = ⟨replaceAllAux p.data [] s.data.length s.data⟩ := by
    unfold pyReplace
    rcases hq : p.data with _ | ⟨a, as⟩
    · exact absurd hq hpd
    · rfl
  have hlen : t.length + p.length * countOcc p s = s.length := by
    rw [hteq, hrw]
    show (replaceAllAux p.data [] s.data.length s.data).length
      + p.data.length * countOccAux p.data s.data.length s.data = s.data.length
    exact replaceAll_length hpd s.data.length s.data (Nat.le_refl _)
  refine ⟨hlen, fun h2 hcontra => ?_⟩
  have hrmlen : (removeFirstOcc p s).length + p.length = s.length := by
    show (removeFirstOccAux p.data s.data).length + p.data.length = s.data.length
    exact removeFirst_length s.data (le_trans (by omega) h2)
  have htlen : t.length = (removeFirstOcc p s).length := by rw [hcontra]
  have hp1 : 1 ≤ p.length := by
    rcases hq : p.data with _ | ⟨a, as⟩
    · exact absurd hq hpd
    · show 1 ≤ p.data.length
      rw [hq]
      simp
  have hmul : p.length * 2 ≤ p.length * countOcc p s := Nat.mul_le_mul_left _ h2
  omega

/-- C6 (witness): `C6_regex_remove_global` at the concrete rule application
rewriting `"aXbXc"` to `"abc"`. -/
theorem C6_witness :
    ("abc" : String).length + ("X" : String).length * countOcc "X" "aXbXc"
      = ("aXbXc" : String).length
    ∧ (2 ≤ countOcc "X" "aXbXc" → ("abc" : String) ≠ removeFirstOcc "X" "aXbXc") :=
  C6_regex_remove_global "mod" "aXbXc" "X" "abc" (by decide) (by rfl)

/-! C7: `clean_s_name` raises if and only if its input is an empty list. The
only other raise site in the scalar pipeline is a truncate rule with an empty
pattern (Python `str.split("")`), excluded by well-formedness of the
applicable clean rules. -/

/-- Well-formedness of a clean-rule list: every truncate-typed rule (including
bare-string shorthands) has a nonempty pattern. -/
def WFCleanExts (exts : List CleanPatternT) : Prop :=
  ∀ pat ∈ exts, (normPattern pat).1 = some "truncate" → (normPattern pat).2.1 ≠ ""

theorem applyCleanType_ok (name : String) (ty : Option String) (pattern : String)
    (h : ty = some "truncate" → pattern ≠ "") :
    ∃ u, applyCleanType name ty pattern = .ok u := by
  cases ty with
  | none => exact ⟨name, rfl⟩
  | some t =>
    by_cases ht : t = "truncate"
    · subst ht
      have hpat := h rfl
      refine ⟨⟨takeUntilOcc pattern.data name.data⟩, ?_⟩
      simp [applyCleanType, hpat]
    · simp only [applyCleanType]
      rw [if_neg ht]
      by_cases h1 : (t = "remove" || t = "replace" : Bool) = true
      · rw [if_pos h1]; exact ⟨_, rfl⟩
      · rw [if_neg h1]
        by_cases h2 : t = "regex"
        · rw [if_pos h2]; exact ⟨_, rfl⟩
        · rw [if_neg h2]
          by_cases h3 : t = "regex_keep"
          · rw [if_pos h3]; exact ⟨_, rfl⟩
          · rw [if_neg h3]; exact ⟨name, rfl⟩

theorem applyCleanExt_ok (anchor name : String) (pat : CleanPatternT)
    (h : (normPattern pat).1 = some "truncate" → (normPattern pat).2.1 ≠ "") :
    ∃ u, applyCleanExt anchor name pat = .ok u := by
  rcases hnp : normPattern pat with ⟨ty, pattern, mods⟩
  rw [hnp] at h
  have hty : ty = some "truncate" → pattern ≠ "" := h
  unfold applyCleanExt
  rw [hnp]
  cases mods with
  | none => exact applyCleanType_ok name ty pattern hty
  | some l =>
    by_cases hc : l.contains anchor = true
    · simp only [hc, if_true]
      exact applyCleanType_ok name ty pattern hty
    · simp only [hc, Bool.false_eq_true, if_false]
      exact ⟨name, rfl⟩

theorem foldlM_cleanExts_ok (anchor : String) (exts : List CleanPatternT)
    (hwf : WFCleanExts exts) :
    ∀ t, ∃ u, exts.foldlM (applyCleanExt anchor) t = .ok u := by
  induction exts with
  | nil => intro t; exact ⟨t, rfl⟩
  | cons pat rest ih =>
    intro t
    obtain ⟨u1, hu1⟩ := applyCleanExt_ok anchor t pat (hwf pat (by simp))
    obtain ⟨u2, hu2⟩ := ih (fun q hq htr => hwf q (by simp [hq]) htr) u1
    refine ⟨u2, ?_⟩
    rw [List.foldlM_cons, hu1, ok_bind, hu2]

theorem trimBeforeStrip_ok (cfg : Config) (anchor s : String)
    (root filename spKey : Option String) (extsO : Option (List CleanPatternT))
    (trimsO : Option (List String)) (pdirsO : Option Bool)
    (hwf : WFCleanExts (extsO.getD cfg.fn_clean_exts)) :
    ∃ u, trimBeforeStrip cfg anchor s root filename spKey extsO trimsO pdirsO = .ok u := by
  unfold trimBeforeStrip
  cases hf : cfg.fn_clean_sample_names with
  | false =>
    simp only [hf, Bool.false_eq_true, if_false]
    exact ⟨_, rfl⟩
  | true =>
    simp only [hf, if_true]
    obtain ⟨u, hu⟩ := foldlM_cleanExts_ok anchor (extsO.getD cfg.fn_clean_exts) hwf
      (basename (match filename with
        | some fn => if useFilenameForSample cfg spKey then fn else s
        | none => s) |> fun t => if pdirsO.getD cfg.prepend_dirs then prependDirsStep cfg root t else t)
    rw [hu, ok_bind]
    exact ⟨_, rfl⟩

theorem cleanScalar_ok (cfg : Config) (anchor s : String)
    (root filename spKey : Option String) (extsO : Option (List CleanPatternT))
    (trimsO : Option (List String)) (pdirsO : Option Bool)
    (hwf : WFCleanExts (extsO.getD cfg.fn_clean_exts)) :
    ∃ u, cleanScalar cfg anchor s root filename spKey extsO trimsO pdirsO = .ok u := by
  obtain ⟨u, hu⟩ := trimBeforeStrip_ok cfg anchor s root filename spKey extsO trimsO pdirsO hwf
  refine ⟨finishName cfg s u, ?_⟩
  unfold cleanScalar
  rw [hu]
  rfl

theorem combineCleanNames_ok (cl : List String) : ∃ u, combineCleanNames cl = .ok u := by
  unfold combineCleanNames
  by_cases h1 : cl.dedup.length = 1
  · rw [if_pos h1]; exact ⟨_, rfl⟩
  · rw [if_neg h1]
    rcases cl with _ | ⟨a, _ | ⟨b, _ | ⟨c, rest⟩⟩⟩
    · exact ⟨_, rfl⟩
    · exact ⟨_, rfl⟩
    · cases hfq : _clean_fastq_pair a b with
      | some m => simp only [hfq]; exact ⟨m, rfl⟩
      | none => simp only [hfq]; exact ⟨_, rfl⟩
    · exact ⟨_, rfl⟩

theorem mapM_cleanScalar_ok (cfg : Config) (anchor : String)
    (root filename spKey : Option String) (extsO : Option (List CleanPatternT))
    (trimsO : Option (List String)) (pdirsO : Option Bool)
    (hwf : WFCleanExts (extsO.getD cfg.fn_clean_exts)) :
    ∀ l : List String, ∃ out, l.mapM
      (fun sn => cleanScalar cfg anchor sn root filename spKey extsO trimsO pdirsO)
      = .ok out := by
  intro l
  induction l with
  | nil => exact ⟨[], rfl⟩
  | cons a t ih =>
    obtain ⟨u, hu⟩ := cleanScalar_ok cfg anchor a root filename spKey extsO trimsO pdirsO hwf
    obtain ⟨out, hout⟩ := ih
    refine ⟨u :: out, ?_⟩
    rw [List.mapM_cons, hu]
    rw [ok_bind, hout]
    rfl

/-- C7: `clean_s_name` raises if and only if its input is the empty list, and
the error raised there is the empty-list `ValueError`. Well-formed
configuration (truncate patterns nonempty) is assumed; no scalar input, and no
non-empty list input, ever raises. -/
theorem C7_raises_iff_empty_list (cfg : Config) (anchor : String) (inp : SNameInput)
    (root filename spKey : Option String) (extsO : Option (List CleanPatternT))
    (trimsO : Option (List String)) (pdirsO : Option Bool)
    (hwf : WFCleanExts (extsO.getD cfg.fn_clean_exts)) :
    (isErr (clean_s_name cfg anchor inp root filename spKey extsO trimsO pdirsO) = true
      ↔ inp = .list [])
    ∧ clean_s_name cfg anchor (.list []) root filename spKey extsO trimsO pdirsO
      = .error .emptyListError := by
  refine ⟨?_, rfl⟩
  cases inp with
  | scalar s =>
    obtain ⟨u, hu⟩ := cleanScalar_ok cfg anchor s root filename spKey extsO trimsO pdirsO hwf
    have hred : clean_s_name cfg anchor (.scalar s) root filename spKey extsO trimsO pdirsO
        = .ok u := hu
    rw [hred]
    simp [isErr]
  | list l =>
    cases l with
    | nil => simp [clean_s_name, isErr]
    | cons a t =>
      obtain ⟨out, hout⟩ := mapM_cleanScalar_ok cfg anchor root filename spKey extsO trimsO
        pdirsO hwf (a :: t)
      obtain ⟨u, hu⟩ := combineCleanNames_ok out
      have hred : clean_s_name cfg anchor (.list (a :: t)) root filename spKey extsO trimsO
          pdirsO = .ok u := by
        show (if (a :: t).isEmpty then (.error .emptyListError : Except PyErr String)
          else ((a :: t).mapM (fun sn =>
            cleanScalar cfg anchor sn root filename spKey extsO trimsO pdirsO))
            >>= combineCleanNames) = .ok u
        rw [if_neg (by simp), hout, ok_bind, hu]
      rw [hred]
      simp [isErr]

/-- C7 (witness): `C7_raises_iff_empty_list` at the trivial configuration and
the scalar input `"x"`. -/
theorem C7_witness :
    (isErr (clean_s_name trivialConfig "mod" (.scalar "x") none none none none none none)
      = true ↔ SNameInput.scalar "x" = .list [])
    ∧ clean_s_name trivialConfig "mod" (.list []) none none none none none none
      = .error .emptyListError :=
  C7_raises_iff_empty_list trivialConfig "mod" (.scalar "x") none none none none none none
    (by intro pat hmem; simp [trivialConfig] at hmem)

/-! C4 and C9: group resolution and singleton-group emission. -/

/-- Grouping configuration for the counterexamples: one label `"lbl"` whose
rule set removes the substring `"_R1"`. -/
def removeR1Config : Config :=
  { trivialConfig with
    generalstats_sample_merge_groups := [("lbl", [.ext (some "remove") (some "_R1") none])] }

/-- C4 (counterexample): `"foo"` resolves with NO label, yet it does not get a
singleton group: it shares the group `"foo"` with the labelled sample
`"foo_R1"` (whose rule-stripped group name collides with `"foo"`), so the two
are merged together. -/
theorem C4_counterexample :
    groups_for_sample removeR1Config "mod" "foo" = .ok ("foo", none)
    ∧ group_samples_names removeR1Config "mod" ["foo", "foo_R1"]
      = .ok [("foo", [⟨none, "foo (None)", "foo"⟩, ⟨some "lbl", "foo (lbl)", "foo_R1"⟩])] := by
  exact ⟨rfl, rfl⟩

theorem groupsForSampleGo_none (cfg : Config) (anchor s : String) :
    ∀ (mg : List (String × List CleanPatternT)) (g : String),
      groupsForSampleGo cfg anchor s mg = .ok (g, none) → g = s := by
  intro mg
  induction mg with
  | nil =>
    intro g h
    have : (Except.ok (s, (none : Option String)) : Except PyErr (String × Option String))
        = .ok (g, none) := h
    cases this
    rfl
  | cons p rest ih =>
    intro g h
    rcases p with ⟨label, exts⟩
    by_cases he : exts.isEmpty = true
    · rw [show groupsForSampleGo cfg anchor s ((label, exts) :: rest)
          = groupsForSampleGo cfg anchor s rest from by
        simp [groupsForSampleGo, he]] at h
      exact ih g h
    · have hred : groupsForSampleGo cfg anchor s ((label, exts) :: rest)
          = ((cleanScalar cfg anchor s none none none (some exts) (some []) (some false)) >>=
            fun stripped =>
              if stripped = s then groupsForSampleGo cfg anchor s rest
              else
                (cleanScalar cfg anchor stripped none none none none none none) >>=
                  fun gn => pure (gn, some label)) := by
        simp [groupsForSampleGo, he]
      rw [hred] at h
      cases hcl : cleanScalar cfg anchor s none none none (some exts) (some []) (some false) with
      | error e => rw [hcl, error_bind] at h; cases h
      | ok stripped =>
        rw [hcl, ok_bind] at h
        by_cases hst : stripped = s
        · rw [if_pos hst] at h
          exact ih g h
        · rw [if_neg hst] at h
          cases hcl2 : cleanScalar cfg anchor stripped none none none none none none with
          | error e => rw [hcl2, error_bind] at h; cases h
          | ok gn =>
            rw [hcl2, ok_bind] at h
            cases h

/-- C4 (amended): a sample whose resolution yields no label is assigned the
group named by its own sample name, so two distinct unlabeled samples never
share a group; it can, however, share a group — and be merged — with a
LABELLED sample whose resolved group name equals its name. -/
theorem C4_unlabeled_group_is_own_name (cfg : Config) (anchor : String) :
    (∀ s g, groups_for_sample cfg anchor s = .ok (g, none) → g = s)
    ∧ (∀ s₁ s₂ g₁ g₂, groups_for_sample cfg anchor s₁ = .ok (g₁, none) →
        groups_for_sample cfg anchor s₂ = .ok (g₂, none) → s₁ ≠ s₂ → g₁ ≠ g₂) := by
  have base : ∀ s g, groups_for_sample cfg anchor s = .ok (g, none) → g = s := by
    intro s g h
    unfold groups_for_sample at h
    by_cases hmg : cfg.generalstats_sample_merge_groups.isEmpty = true
    · rw [if_pos hmg] at h
      cases h
      rfl
    · rw [if_neg hmg] at h
      exact groupsForSampleGo_none cfg anchor s _ g h
  refine ⟨base, fun s₁ s₂ g₁ g₂ h₁ h₂ hne => ?_⟩
  rw [base s₁ g₁ h₁, base s₂ g₂ h₂]
  exact hne

/-- C4 (witness): at the trivial configuration every sample is unlabeled and
its group is its own name; two distinct samples get distinct groups. -/
theorem C4_witness :
    ("foo" : String) = "foo" ∧ ("a" : String) ≠ "b" :=
  ⟨(C4_unlabeled_group_is_own_name trivialConfig "mod").1 "foo" "foo" rfl,
    (C4_unlabeled_group_is_own_name trivialConfig "mod").2 "a" "b" "a" "b" rfl rfl (by decide)⟩

/-- Data and grouping configuration for the C9 counterexample. -/
def singletonData : List (String × RowData) := [("foo_R1", [("cov", .num 10)])]

def emptyGroupingConfig : SampleGroupingConfig := ⟨[], [], [], []⟩

/-- C9 (counterexample): the singleton group of `"foo_R1"` under a label whose
rules strip `"_R1"` is keyed by the GROUP name `"foo"`, with sample name
`"foo"` — not by the member's own name `"foo_R1"`. The data is unchanged and
no merged row is produced, but the claim's "keyed by its own name" fails. -/
theorem C9_counterexample :
    group_samples_and_average_metrics removeR1Config "mod" singletonData emptyGroupingConfig
      = .ok [("foo", [⟨"foo", [("cov", ValueT.num 10)]⟩])]
    ∧ ("foo" : String) ≠ "foo_R1" := by
  exact ⟨rfl, by decide⟩

/-- C9 (amended): a group with exactly one member never produces a merged row:
the aggregator emits exactly one row whose data is the member's original row
unchanged, keyed by the group name and carrying the member's display name as
sample. (The group name and display name equal the member's own name when no
label matched, but can differ from it when a label's rules cleaned the name.) -/
theorem C9_singleton_unchanged (dbs : List (String × RowData))
    (gc : SampleGroupingConfig) (sampleNames : List String) (g : String)
    (m : GroupMember) (rd : RowData) (hrd : alookup dbs m.original = some rd) :
    mergeGroup dbs gc sampleNames g [m] = .ok (g, [⟨m.display, rd⟩]) := by
  unfold mergeGroup
  simp only [List.length_cons, List.length_nil, Nat.lt_irrefl, if_false]
  simp only [lookupSample, hrd]
  rfl

/-- C9 (witness): `C9_singleton_unchanged` at the concrete singleton group of
the counterexample. -/
theorem C9_witness :
    mergeGroup singletonData emptyGroupingConfig ["foo_R1"] "foo"
      [⟨some "lbl", "foo", "foo_R1"⟩]
      = .ok ("foo", [⟨"foo", [("cov", ValueT.num 10)]⟩]) :=
  C9_singleton_unchanged singletonData emptyGroupingConfig ["foo_R1"] "foo"
    ⟨some "lbl", "foo", "foo_R1"⟩ [("cov", .num 10)] rfl

/-! Lemmas relating the aggregation passes to their specification-side sums. -/

theorem alookup_assocSet {α : Type} (d : List (String × α)) (k : String) (v : α) (c : String) :
    alookup (assocSet d k v) c = if c = k then some v else alookup d c := by
  induction d with
  | nil =>
    by_cases h : c = k
    · subst h
      simp [assocSet, alookup]
    · have h2 : ¬ k = c := fun hh => h hh.symm
      simp [assocSet, alookup, h, h2]
  | cons kv rest ih =>
    rcases kv with ⟨k', v'⟩
    by_cases hk : k' = k
    · subst hk
      by_cases hc : c = k'
      · subst hc
        simp [assocSet, alookup]
      · have h2 : ¬ k' = c := fun hh => hc hh.symm
        simp [assocSet, alookup, hc, h2]
    · by_cases hc : k' = c
      · have hck : ¬ c = k := fun hh => hk (hc.trans hh)
        simp [assocSet, alookup, hk, hc, hck]
      · simp [assocSet, alookup, hk, hc, ih]

theorem numColStep_spec (dbs : List (String × RowData)) (c : String) (acc q : ℚ)
    (m : GroupMember) (h : numColStep dbs c acc m = .ok q) :
    q = acc + (numAt dbs m.original c).getD 0 := by
  unfold numColStep at h
  cases hs : alookup dbs m.original with
  | none => simp [lookupSample, hs, bind, Except.bind] at h
  | some rd =>
    simp only [lookupSample, hs, ok_bind] at h
    cases hv : alookup rd c with
    | none => simp [lookupCol, hv, bind, Except.bind] at h
    | some v =>
      simp only [lookupCol, hv, ok_bind] at h
      cases hn : toNum v with
      | none =>
        simp only [hn] at h
        cases h
        simp [numAt, hs, hv, hn]
      | some x =>
        simp only [hn] at h
        cases h
        simp [numAt, hs, hv, hn]

theorem foldlM_numColStep_spec (dbs : List (String × RowData)) (c : String) :
    ∀ (mems : List GroupMember) (acc q : ℚ),
      mems.foldlM (numColStep dbs c) acc = .ok q →
      q = mems.foldl (fun a m => a + ((numAt dbs m.original c).getD 0)) acc := by
  intro mems
  induction mems with
  | nil =>
    intro acc q h
    rw [List.foldlM_nil] at h
    cases h
    rfl
  | cons m rest ih =>
    intro acc q h
    rw [List.foldlM_cons] at h
    cases hstep : numColStep dbs c acc m with
    | error e => rw [hstep, error_bind] at h; cases h
    | ok acc' =>
      rw [hstep, ok_bind] at h
      have hacc : acc' = acc + (numAt dbs m.original c).getD 0 :=
        numColStep_spec dbs c acc acc' m hstep
      rw [List.foldl_cons]
      rw [← hacc]
      exact ih acc' q h

theorem numericColSum_spec (dbs : List (String × RowData)) (mems : List GroupMember)
    (c : String) (q : ℚ) (h : numericColSum dbs mems c = .ok q) :
    q = specColSum dbs mems c :=
  foldlM_numColStep_spec dbs c mems 0 q h

theorem weightedTerm_spec (dbs : List (String × RowData)) (m : GroupMember) (c wc : String)
    (q : ℚ) (h : weightedTerm dbs m c wc = .ok q) :
    q = specWTerm dbs m.original c wc := by
  unfold weightedTerm at h
  cases hs : alookup dbs m.original with
  | none => simp [lookupSample, hs, bind, Except.bind] at h
  | some rd =>
    simp only [lookupSample, hs, ok_bind] at h
    cases hv : alookup rd c with
    | none => simp [lookupCol, hv, bind, Except.bind] at h
    | some v =>
      simp only [lookupCol, hv, ok_bind] at h
      cases hn : toNum v with
      | none =>
        simp only [hn] at h
        cases h
        simp [specWTerm, numAt, hs, hv, hn]
      | some x =>
        simp only [hn] at h
        cases hw : alookup rd wc with
        | none => simp [lookupCol, hw, bind, Except.bind] at h
        | some w =>
          simp only [lookupCol, hw, ok_bind] at h
          cases hnw : toNum w with
          | none =>
            simp only [hnw] at h
            cases h
            simp [specWTerm, numAt, hs, hv, hn, hw, hnw]
          | some y =>
            simp only [hnw] at h
            cases h
            simp [specWTerm, numAt, hs, hv, hn, hw, hnw]

theorem alookup_foldl_assocSet_zero (l : List (String × String)) :
    ∀ (d0 : List (String × ℚ)) (c : String),
      alookup (l.foldl (fun d p => assocSet d p.2 (0 : ℚ)) d0) c
        = if c ∈ l.map (fun p => p.2) then some 0 else alookup d0 c := by
  induction l with
  | nil => intro d0 c; simp
  | cons p rest ih =>
    intro d0 c
    rw [List.foldl_cons, ih (assocSet d0 p.2 0) c, alookup_assocSet]
    by_cases hr : c ∈ rest.map (fun p => p.2)
    · simp [hr]
    · by_cases hcp : c = p.2
      · simp [hr, hcp]
      · simp [hr, hcp]

theorem alookup_initWeights (pairs : List (String × String)) (c : String) :
    alookup (initWeights pairs) c
      = if c ∈ pairs.map (fun p => p.2) then some 0 else none := by
  unfold initWeights
  rw [alookup_foldl_assocSet_zero pairs [] c]
  rfl

theorem computeWeights_mapM_lookup (dbs : List (String × RowData)) (mems : List GroupMember) :
    ∀ (l : List (String × ℚ)) (d : List (String × ℚ)),
      l.mapM (fun kv => (numericColSum dbs mems kv.1).map (fun q => (kv.1, q))) = .ok d →
      ∀ c, (alookup l c).isSome = true → alookup d c = some (specColSum dbs mems c) := by
  intro l
  induction l with
  | nil =>
    intro d h c hc
    simp [alookup] at hc
  | cons kv rest ih =>
    intro d h c hc
    rcases kv with ⟨k, v0⟩
    rw [List.mapM_cons] at h
    cases hn : numericColSum dbs mems k with
    | error e => rw [hn] at h; simp [Except.map, bind, Except.bind] at h
    | ok q =>
      rw [hn] at h
      cases hrest : rest.mapM
          (fun kv => (numericColSum dbs mems kv.1).map (fun q => (kv.1, q))) with
      | error e => rw [hrest] at h; simp [Except.map, bind, Except.bind] at h
      | ok ds =>
        rw [hrest] at h
        have hd : d = (k, q) :: ds := by
          simp only [Except.map, ok_bind] at h
          cases h
          rfl
        subst hd
        by_cases hk : k = c
        · subst hk
          rw [show alookup ((k, q) :: ds) k = some q from by simp [alookup]]
          rw [numericColSum_spec dbs mems k q hn]
        · rw [show alookup ((k, q) :: ds) c = alookup ds c from by simp [alookup, hk]]
          have hc2 : (alookup rest c).isSome = true := by
            rw [show alookup ((k, v0) :: rest) c = alookup rest c from by
              simp [alookup, hk]] at hc
            exact hc
          exact ih ds hrest c hc2

theorem computeWeights_mapM_values (dbs : List (String × RowData)) (mems : List GroupMember) :
    ∀ (l : List (String × ℚ)) (d : List (String × ℚ)),
      l.mapM (fun kv => (numericColSum dbs mems kv.1).map (fun q => (kv.1, q))) = .ok d →
      ∀ c q, alookup d c = some q → q = specColSum dbs mems c := by
  intro l
  induction l with
  | nil =>
    intro d h c q hq
    rw [List.mapM_nil] at h
    cases h
    simp [alookup] at hq
  | cons kv rest ih =>
    intro d h c q hq
    rcases kv with ⟨k, v0⟩
    rw [List.mapM_cons] at h
    cases hn : numericColSum dbs mems k with
    | error e => rw [hn] at h; simp [Except.map, bind, Except.bind] at h
    | ok q0 =>
      rw [hn] at h
      cases hrest : rest.mapM
          (fun kv => (numericColSum dbs mems kv.1).map (fun q => (kv.1, q))) with
      | error e => rw [hrest] at h; simp [Except.map, bind, Except.bind] at h
      | ok ds =>
        rw [hrest] at h
        have hd : d = (k, q0) :: ds := by
          simp only [Except.map, ok_bind] at h
          cases h
          rfl
        subst hd
        by_cases hk : k = c
        · have hlk : alookup ((k, q0) :: ds) c = some q0 := by simp [alookup, hk]
          rw [hlk] at hq
          have hqq : q = q0 := by
            injection hq with hq2
            exact hq2.symm
          rw [hqq, ← hk]
          exact numericColSum_spec dbs mems k q0 hn
        · have hlk : alookup ((k, q0) :: ds) c = alookup ds c := by simp [alookup, hk]
          rw [hlk] at hq
          exact ih ds hrest c q hq

theorem mapM_weightedTerm_foldl (dbs : List (String × RowData)) (c wc : String) :
    ∀ (mems : List GroupMember) (terms : List ℚ),
      mems.mapM (fun m => weightedTerm dbs m c wc) = .ok terms →
      ∀ a : ℚ, terms.foldl (· + ·) a
        = mems.foldl (fun x m => x + specWTerm dbs m.original c wc) a := by
  intro mems
  induction mems with
  | nil =>
    intro terms h a
    rw [List.mapM_nil] at h
    cases h
    rfl
  | cons m rest ih =>
    intro terms h a
    rw [List.mapM_cons] at h
    cases ht : weightedTerm dbs m c wc with
    | error e => rw [ht, error_bind] at h; cases h
    | ok q =>
      rw [ht, ok_bind] at h
      cases hrest : rest.mapM (fun m => weightedTerm dbs m c wc) with
      | error e => rw [hrest, error_bind] at h; cases h
      | ok ts =>
        rw [hrest, ok_bind] at h
        have hterms : terms = q :: ts := by cases h; rfl
        subst hterms
        rw [List.foldl_cons, List.foldl_cons, ih ts hrest (a + q),
          weightedTerm_spec dbs m c wc q ht]

theorem weightedPass_preserve (dbs : List (String × RowData)) (mems : List GroupMember)
    (sumByCol : List (String × ℚ)) (col : String) :
    ∀ (pairs : List (String × String)) (md md' : RowData),
      (∀ pr ∈ pairs, pr.1 ≠ col) →
      weightedPass dbs mems sumByCol pairs md = .ok md' →
      alookup md' col = alookup md col := by
  intro pairs
  induction pairs with
  | nil =>
    intro md md' _ h
    cases h
    rfl
  | cons p rest ih =>
    intro md md' hne h
    rcases p with ⟨c, wc⟩
    simp only [weightedPass] at h
    cases hwl : alookup sumByCol wc with
    | none => simp [hwl, bind, Except.bind] at h
    | some w =>
      simp only [hwl, ok_bind] at h
      have hcne : ¬ col = c := fun hh => (hne (c, wc) (by simp)) hh.symm
      by_cases hpos : 0 < w
      · rw [if_pos hpos] at h
        cases ht : mems.mapM (fun m => weightedTerm dbs m c wc) with
        | error e => rw [ht, error_bind] at h; cases h
        | ok terms =>
          rw [ht, ok_bind] at h
          have hrec := ih _ md' (fun pr hpr => hne pr (by simp [hpr])) h
          rw [hrec, alookup_assocSet, if_neg hcne]
      · rw [if_neg hpos] at h
        exact ih md md' (fun pr hpr => hne pr (by simp [hpr])) h

theorem weightedPass_filter (dbs : List (String × RowData)) (mems : List GroupMember)
    (sumByCol : List (String × ℚ)) (col wcol : String) (ws : ℚ)
    (hw : alookup sumByCol wcol = some ws) :
    ∀ (pairs : List (String × String)) (md md' : RowData),
      pairs.filter (fun pr => pr.1 == col) = [(col, wcol)] →
      weightedPass dbs mems sumByCol pairs md = .ok md' →
      (0 < ws → alookup md' col
        = some (.num (specWTermSum dbs mems col wcol / ws)))
      ∧ (¬ 0 < ws → alookup md' col = alookup md col) := by
  intro pairs
  induction pairs with
  | nil =>
    intro md md' hf h
    simp at hf
  | cons p rest ih =>
    intro md md' hf h
    rcases p with ⟨c, wc⟩
    by_cases hcb : (c == col) = true
    · have hceq : c = col := by simpa using hcb
      subst hceq
      rw [List.filter_cons, if_pos (by simp)] at hf
      have h1 : ((c, wc) : String × String) = (c, wcol) ∧ rest.filter
          (fun pr => pr.1 == c) = [] := by
        constructor
        · have := List.head_eq_of_cons_eq hf
          rw [this]
        · exact List.tail_eq_of_cons_eq hf
      have hwc : wc = wcol := by
        have := h1.1
        simp at this
        exact this
      subst hwc
      have hrest : ∀ pr ∈ rest, pr.1 ≠ c := by
        intro pr hpr
        have := List.filter_eq_nil_iff.mp h1.2 pr hpr
        simpa using this
      simp only [weightedPass] at h
      simp only [hw, ok_bind] at h
      by_cases hpos : 0 < ws
      · rw [if_pos hpos] at h
        cases ht : mems.mapM (fun m => weightedTerm dbs m c wc) with
        | error e => rw [ht, error_bind] at h; cases h
        | ok terms =>
          rw [ht, ok_bind] at h
          have hpres := weightedPass_preserve dbs mems sumByCol c rest _ md' hrest h
          constructor
          · intro _
            rw [hpres, alookup_assocSet, if_pos rfl]
            have hfold := mapM_weightedTerm_foldl dbs c wc mems terms ht 0
            rw [hfold]
            rfl
          · intro hn
            exact absurd hpos hn
      · rw [if_neg hpos] at h
        have hpres := weightedPass_preserve dbs mems sumByCol c rest md md' hrest h
        exact ⟨fun hp => absurd hp hpos, fun _ => hpres⟩
    · have hcne : c ≠ col := by simpa using hcb
      rw [List.filter_cons, if_neg (by simpa using hcb)] at hf
      simp only [weightedPass] at h
      cases hwl : alookup sumByCol wc with
      | none => simp [hwl, bind, Except.bind] at h
      | some w =>
        simp only [hwl, ok_bind] at h
        by_cases hpos : 0 < w
        · rw [if_pos hpos] at h
          cases ht : mems.mapM (fun m => weightedTerm dbs m c wc) with
          | error e => rw [ht, error_bind] at h; cases h
          | ok terms =>
            rw [ht, ok_bind] at h
            have ih2 := ih _ md' hf h
            refine ⟨ih2.1, fun hn => ?_⟩
            rw [ih2.2 hn, alookup_assocSet, if_neg (fun hh => hcne hh.symm)]
        · rw [if_neg hpos] at h
          exact ih md md' hf h

theorem averagePass_preserve (dbs : List (String × RowData)) (mems : List GroupMember)
    (col : String) :
    ∀ (cols : List String) (md md' : RowData),
      col ∉ cols → averagePass dbs mems cols md = .ok md' →
      alookup md' col = alookup md col := by
  intro cols
  induction cols with
  | nil =>
    intro md md' _ h
    cases h
    rfl
  | cons c rest ih =>
    intro md md' hnm h
    simp only [averagePass] at h
    cases hn : numericColSum dbs mems c with
    | error e => rw [hn, error_bind] at h; cases h
    | ok s =>
      rw [hn, ok_bind] at h
      have hcne : ¬ col = c := fun hh => hnm (by simp [hh])
      have hrec := ih _ md' (fun hm => hnm (by simp [hm])) h
      rw [hrec, alookup_assocSet, if_neg hcne]

theorem averagePass_mem (dbs : List (String × RowData)) (mems : List GroupMember)
    (col : String) :
    ∀ (cols : List String) (md md' : RowData),
      col ∈ cols → averagePass dbs mems cols md = .ok md' →
      alookup md' col = some (.num (specColSum dbs mems col / (mems.length : ℚ))) := by
  intro cols
  induction cols with
  | nil =>
    intro md md' hm h
    simp at hm
  | cons c rest ih =>
    intro md md' hm h
    simp only [averagePass] at h
    cases hn : numericColSum dbs mems c with
    | error e => rw [hn, error_bind] at h; cases h
    | ok s =>
      rw [hn, ok_bind] at h
      by_cases hr : col ∈ rest
      · exact ih _ md' hr h
      · have hcc : col = c := by
          rcases List.mem_cons.mp hm with hh | hh
          · exact hh
          · exact absurd hh hr
        have hpres := averagePass_preserve dbs mems col rest _ md' hr h
        rw [hpres, alookup_assocSet, if_pos hcc]
        rw [numericColSum_spec dbs mems c s hn, ← hcc]

theorem sumPass_preserve (dbs : List (String × RowData)) (mems : List GroupMember)
    (sumByCol : List (String × ℚ)) (col : String) :
    ∀ (cols : List String) (md md' : RowData),
      col ∉ cols → sumPass dbs mems sumByCol cols md = .ok md' →
      alookup md' col = alookup md col := by
  intro cols
  induction cols with
  | nil =>
    intro md md' _ h
    cases h
    rfl
  | cons c rest ih =>
    intro md md' hnm h
    simp only [sumPass] at h
    have hcne : ¬ col = c := fun hh => hnm (by simp [hh])
    cases hb : alookup sumByCol c with
    | some q =>
      rw [hb] at h
      have hrec := ih _ md' (fun hm => hnm (by simp [hm])) h
      rw [hrec, alookup_assocSet, if_neg hcne]
    | none =>
      rw [hb] at h
      cases hn : numericColSum dbs mems c with
      | error e => rw [hn, error_bind] at h; cases h
      | ok s =>
        rw [hn, ok_bind] at h
        have hrec := ih _ md' (fun hm => hnm (by simp [hm])) h
        rw [hrec, alookup_assocSet, if_neg hcne]

theorem sumPass_mem (dbs : List (String × RowData)) (mems : List GroupMember)
    (sumByCol : List (String × ℚ)) (col : String)
    (hW : ∀ c q, alookup sumByCol c = some q → q = specColSum dbs mems c) :
    ∀ (cols : List String) (md md' : RowData),
      col ∈ cols → sumPass dbs mems sumByCol cols md = .ok md' →
      alookup md' col = some (.num (specColSum dbs mems col)) := by
  intro cols
  induction cols with
  | nil =>
    intro md md' hm h
    simp at hm
  | cons c rest ih =>
    intro md md' hm h
    simp only [sumPass] at h
    cases hb : alookup sumByCol c with
    | some q =>
      rw [hb] at h
      by_cases hr : col ∈ rest
      · exact ih _ md' hr h
      · have hcc : col = c := by
          rcases List.mem_cons.mp hm with hh | hh
          · exact hh
          · exact absurd hh hr
        have hpres := sumPass_preserve dbs mems sumByCol col rest _ md' hr h
        rw [hpres, alookup_assocSet, if_pos hcc]
        rw [hW c q hb, ← hcc]
    | none =>
      rw [hb] at h
      cases hn : numericColSum dbs mems c with
      | error e => rw [hn, error_bind] at h; cases h
      | ok s =>
        rw [hn, ok_bind] at h
        by_cases hr : col ∈ rest
        · exact ih _ md' hr h
        · have hcc : col = c := by
            rcases List.mem_cons.mp hm with hh | hh
            · exact hh
            · exact absurd hh hr
          have hpres := sumPass_preserve dbs mems sumByCol col rest _ md' hr h
          rw [hpres, alookup_assocSet, if_pos hcc]
          rw [numericColSum_spec dbs mems c s hn, ← hcc]

theorem computeMergedData_parts (dbs : List (String × RowData))
    (gc : SampleGroupingConfig) (mems : List GroupMember) (md : RowData)
    (h : computeMergedData dbs gc mems = .ok md) :
    ∃ sumByCol md1 md2,
      (if gc.cols_to_weighted_average.isEmpty then Except.ok ([] : List (String × ℚ))
        else computeWeights dbs mems gc.cols_to_weighted_average) = .ok sumByCol
      ∧ (if gc.cols_to_weighted_average.isEmpty then Except.ok ([] : RowData)
        else weightedPass dbs mems sumByCol gc.cols_to_weighted_average []) = .ok md1
      ∧ (if gc.cols_to_average.isEmpty then Except.ok md1
        else averagePass dbs mems gc.cols_to_average md1) = .ok md2
      ∧ (if gc.cols_to_sum.isEmpty then Except.ok md2
        else sumPass dbs mems sumByCol gc.cols_to_sum md2) = .ok md := by
  unfold computeMergedData at h
  cases he1 : gc.cols_to_weighted_average.isEmpty with
  | true =>
    rw [he1] at h
    simp only [if_true, pure_bind] at h
    cases he2 : gc.cols_to_average.isEmpty with
    | true =>
      rw [he2] at h
      simp only [if_true, pure_bind] at h
      exact ⟨[], [], [], by simp, by simp, by simp [he2], h⟩
    | false =>
      rw [he2] at h
      simp only [Bool.false_eq_true, if_false] at h
      cases ha : averagePass dbs mems gc.cols_to_average [] with
      | error e => rw [ha, error_bind] at h; cases h
      | ok md2 =>
        rw [ha, ok_bind] at h
        exact ⟨[], [], md2, by simp, by simp, by simp [he2, ha], h⟩
  | false =>
    rw [he1] at h
    simp only [Bool.false_eq_true, if_false] at h
    cases hw : computeWeights dbs mems gc.cols_to_weighted_average with
    | error e => rw [hw, error_bind] at h; cases h
    | ok sumByCol =>
      rw [hw, ok_bind] at h
      cases hp : weightedPass dbs mems sumByCol gc.cols_to_weighted_average [] with
      | error e => rw [hp, error_bind] at h; cases h
      | ok md1 =>
        rw [hp, ok_bind] at h
        cases he2 : gc.cols_to_average.isEmpty with
        | true =>
          rw [he2] at h
          simp only [if_true, pure_bind] at h
          exact ⟨sumByCol, md1, md1, by simp [he1, hw], by simp [he1, hp],
            by simp [he2], h⟩
        | false =>
          rw [he2] at h
          simp only [Bool.false_eq_true, if_false] at h
          cases ha : averagePass dbs mems gc.cols_to_average md1 with
          | error e => rw [ha, error_bind] at h; cases h
          | ok md2 =>
            rw [ha, ok_bind] at h
            exact ⟨sumByCol, md1, md2, by simp [he1, hw], by simp [he1, hp],
              by simp [he2, ha], h⟩

/-- C2 (amended): for a merged group and a weighted-average pair `(col, wcol)`
such that no other policy writes `col` (no other pair has value column `col`,
and `col` is not an average or sum column): if the members' numeric weight sum
is positive the merged value is the weighted mean `Σ xᵢ·wᵢ / Σ wᵢ` with a term
contributing 0 when either side is non-numeric, and if the weight sum is 0 the
column is absent from the merged row. When another policy also writes `col`,
the later pass overwrites this value (see C10). -/
theorem C2_weighted_average (dbs : List (String × RowData)) (gc : SampleGroupingConfig)
    (mems : List GroupMember) (col wcol : String) (md : RowData)
    (hpair : gc.cols_to_weighted_average.filter (fun pr => pr.1 == col) = [(col, wcol)])
    (havg : col ∉ gc.cols_to_average) (hsum : col ∉ gc.cols_to_sum)
    (_hk : 2 ≤ mems.length)
    (hok : computeMergedData dbs gc mems = .ok md) :
    (0 < specColSum dbs mems wcol →
      alookup md col
        = some (.num (specWTermSum dbs mems col wcol / specColSum dbs mems wcol)))
    ∧ (specColSum dbs mems wcol = 0 → alookup md col = none) := by
  obtain ⟨sumByCol, md1, md2, h1, h2, h3, h4⟩ := computeMergedData_parts dbs gc mems md hok
  have hpne : gc.cols_to_weighted_average.isEmpty = false := by
    cases hl : gc.cols_to_weighted_average with
    | nil => rw [hl] at hpair; simp at hpair
    | cons a t => rfl
  rw [hpne] at h1 h2
  simp only [Bool.false_eq_true, if_false] at h1 h2
  have hmem : (col, wcol) ∈ gc.cols_to_weighted_average := by
    have hmf : (col, wcol) ∈ gc.cols_to_weighted_average.filter (fun pr => pr.1 == col) := by
      rw [hpair]
      simp
    exact List.mem_of_mem_filter hmf
  have hwin : wcol ∈ gc.cols_to_weighted_average.map (fun p => p.2) :=
    List.mem_map.mpr ⟨(col, wcol), hmem, rfl⟩
  have hinit : alookup (initWeights gc.cols_to_weighted_average) wcol = some 0 := by
    rw [alookup_initWeights, if_pos hwin]
  have hwlook : alookup sumByCol wcol = some (specColSum dbs mems wcol) := by
    apply computeWeights_mapM_lookup dbs mems (initWeights gc.cols_to_weighted_average)
      sumByCol h1 wcol
    rw [hinit]
    rfl
  have hfilter := weightedPass_filter dbs mems sumByCol col wcol
    (specColSum dbs mems wcol) hwlook gc.cols_to_weighted_average [] md1 hpair h2
  have havg2 : alookup md2 col = alookup md1 col := by
    by_cases he : gc.cols_to_average.isEmpty = true
    · rw [if_pos he] at h3
      cases h3
      rfl
    · rw [if_neg he] at h3
      exact averagePass_preserve dbs mems col gc.cols_to_average md1 md2 havg h3
  have hsum2 : alookup md col = alookup md2 col := by
    by_cases he : gc.cols_to_sum.isEmpty = true
    · rw [if_pos he] at h4
      cases h4
      rfl
    · rw [if_neg he] at h4
      exact sumPass_preserve dbs mems sumByCol col gc.cols_to_sum md2 md hsum h4
  constructor
  · intro hpos
    rw [hsum2, havg2]
    exact hfilter.1 hpos
  · intro hz
    rw [hsum2, havg2, hfilter.2 (by rw [hz]; exact lt_irrefl 0)]
    rfl

/-- Data for the C2 counterexample and the C10 witness: the column `"x"` is
referenced both by the weighted-average pair `("x", "w")` and by the sum
policy. -/
def overlapData : List (String × RowData) :=
  [("s_1", [("x", .num 1), ("w", .num 1)]), ("s_2", [("x", .num 3), ("w", .num 1)])]

def overlapMems : List GroupMember :=
  [⟨some "l", "d1", "s_1"⟩, ⟨some "l", "d2", "s_2"⟩]

def overlapGC : SampleGroupingConfig := ⟨[("x", "w")], [], ["x"], []⟩

/-- C2 (counterexample): a group of two members with weighted-average pair
`("x", "w")` and positive weight sum, where `"x"` is ALSO a sum column: the
merged `"x"` is the sum 4, not the weighted mean 2 the claim promises for
every weighted-average pair. -/
theorem C2_counterexample :
    computeMergedData overlapData overlapGC overlapMems = .ok [("x", ValueT.num 4)]
    ∧ overlapMems.length = 2
    ∧ 0 < specColSum overlapData overlapMems "w"
    ∧ specWTermSum overlapData overlapMems "x" "w" / specColSum overlapData overlapMems "w"
      = 2
    ∧ alookup [("x", ValueT.num 4)] "x"
      ≠ some (.num (specWTermSum overlapData overlapMems "x" "w"
        / specColSum overlapData overlapMems "w")) := by
  have h1 : computeMergedData overlapData overlapGC overlapMems
      = .ok [("x", ValueT.num 4)] := by
    simp +decide [computeMergedData, computeWeights, initWeights, assocSet, numericColSum,
      numColStep, weightedPass, weightedTerm, sumPass, averagePass, lookupSample, lookupCol,
      alookup, toNum, overlapData, overlapGC, overlapMems, List.foldlM, List.mapM,
      List.mapM.loop, bind, Except.bind, pure, Except.pure, Except.map]
    norm_num
  have h2 : specColSum overlapData overlapMems "w" = 2 := by
    simp +decide [specColSum, numAt, alookup, toNum, overlapData, overlapMems]
    norm_num
  have h3 : specWTermSum overlapData overlapMems "x" "w" = 4 := by
    simp +decide [specWTermSum, specWTerm, numAt, alookup, toNum, overlapData, overlapMems]
    norm_num
  refine ⟨h1, rfl, by rw [h2]; norm_num, by rw [h2, h3]; norm_num, ?_⟩
  rw [h2, h3]
  norm_num [alookup]

/-- Data for the C2 witness, the specification's worked example: members with
`cov`/`reads` values 10/100 and 20/300 and weighted-average pair
`(cov, reads)` yield merged `cov = (10*100 + 20*300)/(100+300) = 17.5`. -/
def wavgData : List (String × RowData) :=
  [("s_1", [("cov", .num 10), ("reads", .num 100)]),
   ("s_2", [("cov", .num 20), ("reads", .num 300)])]

def wavgMems : List GroupMember :=
  [⟨some "rep", "s (rep)", "s_1"⟩, ⟨some "rep", "s (rep)", "s_2"⟩]

def wavgGC : SampleGroupingConfig := ⟨[("cov", "reads")], [], [], []⟩

/-- C2 (witness): `C2_weighted_average` at the specification's 17.5 example. -/
theorem C2_witness :
    computeMergedData wavgData wavgGC wavgMems = .ok [("cov", ValueT.num (35/2))]
    ∧ 0 < specColSum wavgData wavgMems "reads"
    ∧ alookup [("cov", ValueT.num (35/2))] "cov"
      = some (.num (specWTermSum wavgData wavgMems "cov" "reads"
        / specColSum wavgData wavgMems "reads")) := by
  have hok : computeMergedData wavgData wavgGC wavgMems = .ok [("cov", ValueT.num (35/2))] := by
    simp +decide [computeMergedData, computeWeights, initWeights, assocSet, numericColSum,
      numColStep, weightedPass, weightedTerm, sumPass, averagePass, lookupSample, lookupCol,
      alookup, toNum, wavgData, wavgGC, wavgMems, List.foldlM, List.mapM,
      List.mapM.loop, bind, Except.bind, pure, Except.pure, Except.map]
    norm_num
  have hpos : 0 < specColSum wavgData wavgMems "reads" := by
    have hval : specColSum wavgData wavgMems "reads" = 400 := by
      simp +decide [specColSum, numAt, alookup, toNum, wavgData, wavgMems]
      norm_num
    rw [hval]
    norm_num
  refine ⟨hok, hpos, ?_⟩
  exact (C2_weighted_average wavgData wavgGC wavgMems "cov" "reads" [("cov", ValueT.num (35/2))]
    (by decide) (by decide) (by decide) (by decide) hok).1 hpos

/-- C10: when a column key appears in more than one aggregation policy, the
merged value is the one computed by the last-applied policy, because the
three passes run in the fixed order weighted average, then average, then sum,
each writing into the same merged-row entry: every sum column ends with the
sum-policy value (regardless of any weighted-average pair or average policy
on the same column), and every average column not also a sum column ends with
the average-policy value (regardless of any weighted-average pair on it). -/
theorem C10_policy_overwrite (dbs : List (String × RowData)) (gc : SampleGroupingConfig)
    (mems : List GroupMember) (md : RowData)
    (hok : computeMergedData dbs gc mems = .ok md) :
    (∀ col ∈ gc.cols_to_sum, alookup md col = some (.num (specColSum dbs mems col)))
    ∧ (∀ col ∈ gc.cols_to_average, col ∉ gc.cols_to_sum →
        alookup md col = some (.num (specColSum dbs mems col / (mems.length : ℚ)))) := by
  obtain ⟨sumByCol, md1, md2, h1, h2, h3, h4⟩ := computeMergedData_parts dbs gc mems md hok
  have hW : ∀ c q, alookup sumByCol c = some q → q = specColSum dbs mems c := by
    by_cases he : gc.cols_to_weighted_average.isEmpty = true
    · rw [if_pos he] at h1
      cases h1
      intro c q hq
      simp [alookup] at hq
    · rw [if_neg he] at h1
      exact computeWeights_mapM_values dbs mems (initWeights gc.cols_to_weighted_average)
        sumByCol h1
  constructor
  · intro col hcol
    have hse : ¬ (gc.cols_to_sum.isEmpty = true) := by
      cases hl : gc.cols_to_sum with
      | nil => rw [hl] at hcol; simp at hcol
      | cons a t => simp [hl]
    rw [if_neg hse] at h4
    exact sumPass_mem dbs mems sumByCol col hW gc.cols_to_sum md2 md hcol h4
  · intro col hcol hns
    have hae : ¬ (gc.cols_to_average.isEmpty = true) := by
      cases hl : gc.cols_to_average with
      | nil => rw [hl] at hcol; simp at hcol
      | cons a t => simp [hl]
    rw [if_neg hae] at h3
    have havgset := averagePass_mem dbs mems col gc.cols_to_average md1 md2 hcol h3
    have hpres : alookup md col = alookup md2 col := by
      by_cases he : gc.cols_to_sum.isEmpty = true
      · rw [if_pos he] at h4
        cases h4
        rfl
      · rw [if_neg he] at h4
        exact sumPass_preserve dbs mems sumByCol col gc.cols_to_sum md2 md hns h4
    rw [hpres, havgset]

/-- Grouping configuration for the C10 witness: the column `"x"` appears in
all three policies at once. -/
def tripleOverlapGC : SampleGroupingConfig := ⟨[("x", "w")], ["x"], ["x"], []⟩

/-- C10 (witness): with `"x"` in all three policies, the weighted mean 2 and
the plain average 2 are overwritten by the sum 4, the last-applied policy. -/
theorem C10_witness :
    computeMergedData overlapData tripleOverlapGC overlapMems = .ok [("x", ValueT.num 4)]
    ∧ alookup [("x", ValueT.num 4)] "x"
      = some (.num (specColSum overlapData overlapMems "x")) := by
  have hok : computeMergedData overlapData tripleOverlapGC overlapMems
      = .ok [("x", ValueT.num 4)] := by
    simp +decide [computeMergedData, computeWeights, initWeights, assocSet, numericColSum,
      numColStep, weightedPass, weightedTerm, sumPass, averagePass, lookupSample, lookupCol,
      alookup, toNum, overlapData, tripleOverlapGC, overlapMems, List.foldlM, List.mapM,
      List.mapM.loop, bind, Except.bind, pure, Except.pure, Except.map]
    norm_num
  refine ⟨hok, ?_⟩
  exact (C10_policy_overwrite overlapData tripleOverlapGC overlapMems
    [("x", ValueT.num 4)] hok).1 "x" (by decide)

/-! C1: presence of every referenced column means aggregation cannot raise;
an absent column raises `KeyError`. -/

/-- A column is present in every member's row. -/
def colPresent (dbs : List (String × RowData)) (mems : List GroupMember) (c : String) : Prop :=
  ∀ m ∈ mems, ∃ rd, alookup dbs m.original = some rd ∧ (alookup rd c).isSome = true

theorem numColStep_isOk (dbs : List (String × RowData)) (c : String) (acc : ℚ)
    (m : GroupMember) (rd : RowData) (hs : alookup dbs m.original = some rd)
    (hc : (alookup rd c).isSome = true) :
    ∃ q, numColStep dbs c acc m = .ok q := by
  obtain ⟨v, hv⟩ := Option.isSome_iff_exists.mp hc
  unfold numColStep
  simp only [lookupSample, hs, ok_bind, lookupCol, hv]
  cases toNum v with
  | none => exact ⟨acc, rfl⟩
  | some x => exact ⟨acc + x, rfl⟩

theorem foldlM_numColStep_isOk (dbs : List (String × RowData)) (c : String) :
    ∀ (mems : List GroupMember) (acc : ℚ), colPresent dbs mems c →
      ∃ q, mems.foldlM (numColStep dbs c) acc = .ok q := by
  intro mems
  induction mems with
  | nil => intro acc _; exact ⟨acc, rfl⟩
  | cons m rest ih =>
    intro acc hp
    obtain ⟨rd, hs, hc⟩ := hp m (by simp)
    obtain ⟨q1, hq1⟩ := numColStep_isOk dbs c acc m rd hs hc
    obtain ⟨q2, hq2⟩ := ih q1 (fun m2 hm2 => hp m2 (by simp [hm2]))
    exact ⟨q2, by rw [List.foldlM_cons, hq1, ok_bind, hq2]⟩

theorem numericColSum_isOk (dbs : List (String × RowData)) (mems : List GroupMember)
    (c : String) (hp : colPresent dbs mems c) :
    ∃ q, numericColSum dbs mems c = .ok q :=
  foldlM_numColStep_isOk dbs c mems 0 hp

theorem assocSet_mem_keys {α : Type} :
    ∀ (d : List (String × α)) (k : String) (v : α) (kv : String × α),
      kv ∈ assocSet d k v → kv.1 = k ∨ kv ∈ d := by
  intro d
  induction d with
  | nil =>
    intro k v kv h
    simp [assocSet] at h
    left
    rw [h]
  | cons p rest ih =>
    intro k v kv h
    rcases p with ⟨k', v'⟩
    by_cases hk : k' = k
    · rw [show assocSet ((k', v') :: rest) k v = (k', v) :: rest from by
        simp [assocSet, hk]] at h
      rcases List.mem_cons.mp h with hh | hh
      · left; rw [hh, hk]
      · right; exact List.mem_cons.mpr (Or.inr hh)
    · rw [show assocSet ((k', v') :: rest) k v = (k', v') :: assocSet rest k v from by
        simp [assocSet, hk]] at h
      rcases List.mem_cons.mp h with hh | hh
      · right; exact List.mem_cons.mpr (Or.inl hh)
      · rcases ih k v kv hh with h1 | h1
        · left; exact h1
        · right; exact List.mem_cons.mpr (Or.inr h1)

theorem initWeights_keys_aux :
    ∀ (l : List (String × String)) (d0 : List (String × ℚ)) (kv : String × ℚ),
      kv ∈ l.foldl (fun d p => assocSet d p.2 (0 : ℚ)) d0 →
      kv.1 ∈ l.map (fun p => p.2) ∨ kv ∈ d0 := by
  intro l
  induction l with
  | nil => intro d0 kv h; right; exact h
  | cons p rest ih =>
    intro d0 kv h
    rw [List.foldl_cons] at h
    rcases ih (assocSet d0 p.2 0) kv h with h1 | h1
    · left; simp [h1]
    · rcases assocSet_mem_keys d0 p.2 0 kv h1 with h2 | h2
      · left; simp [h2]
      · right; exact h2

theorem initWeights_keys (pairs : List (String × String)) (kv : String × ℚ)
    (h : kv ∈ initWeights pairs) : kv.1 ∈ pairs.map (fun p => p.2) := by
  rcases initWeights_keys_aux pairs [] kv h with h1 | h1
  · exact h1
  · simp at h1

theorem mapM_weights_isOk (dbs : List (String × RowData)) (mems : List GroupMember) :
    ∀ (l : List (String × ℚ)),
      (∀ kv ∈ l, colPresent dbs mems kv.1) →
      ∃ d, l.mapM (fun kv => (numericColSum dbs mems kv.1).map (fun q => (kv.1, q)))
        = .ok d := by
  intro l
  induction l with
  | nil => intro _; exact ⟨[], rfl⟩
  | cons kv rest ih =>
    intro hp
    obtain ⟨q, hq⟩ := numericColSum_isOk dbs mems kv.1 (hp kv (by simp))
    obtain ⟨ds, hds⟩ := ih (fun kv2 h2 => hp kv2 (by simp [h2]))
    refine ⟨(kv.1, q) :: ds, ?_⟩
    rw [List.mapM_cons, hq]
    rw [show Except.map (fun q => (kv.1, q)) (Except.ok q)
      = (Except.ok (kv.1, q) : Except PyErr (String × ℚ)) from rfl]
    rw [ok_bind, hds, ok_bind]
    rfl

theorem weightedTerm_isOk (dbs : List (String × RowData)) (m : GroupMember) (c wc : String)
    (rd : RowData) (hs : alookup dbs m.original = some rd)
    (hc : (alookup rd c).isSome = true) (hwc : (alookup rd wc).isSome = true) :
    ∃ q, weightedTerm dbs m c wc = .ok q := by
  obtain ⟨v, hv⟩ := Option.isSome_iff_exists.mp hc
  obtain ⟨w, hw⟩ := Option.isSome_iff_exists.mp hwc
  unfold weightedTerm
  simp only [lookupSample, hs, ok_bind, lookupCol, hv]
  cases toNum v with
  | none => exact ⟨0, rfl⟩
  | some x =>
    simp only [hw, ok_bind]
    cases toNum w with
    | none => exact ⟨0, rfl⟩
    | some y => exact ⟨x * y, rfl⟩

theorem mapM_weightedTerm_isOk (dbs : List (String × RowData)) (c wc : String) :
    ∀ (mems : List GroupMember),
      (∀ m ∈ mems, ∃ rd, alookup dbs m.original = some rd
        ∧ (alookup rd c).isSome = true ∧ (alookup rd wc).isSome = true) →
      ∃ ts, mems.mapM (fun m => weightedTerm dbs m c wc) = .ok ts := by
  intro mems
  induction mems with
  | nil => intro _; exact ⟨[], rfl⟩
  | cons m rest ih =>
    intro hp
    obtain ⟨rd, hs, hc, hwc⟩ := hp m (by simp)
    obtain ⟨q, hq⟩ := weightedTerm_isOk dbs m c wc rd hs hc hwc
    obtain ⟨ts, hts⟩ := ih (fun m2 h2 => hp m2 (by simp [h2]))
    refine ⟨q :: ts, ?_⟩
    rw [List.mapM_cons, hq, ok_bind, hts, ok_bind]
    rfl

theorem weightedPass_isOk (dbs : List (String × RowData)) (mems : List GroupMember)
    (sumByCol : List (String × ℚ)) :
    ∀ (pairs : List (String × String)) (md : RowData),
      (∀ pr ∈ pairs, (alookup sumByCol pr.2).isSome = true) →
      (∀ pr ∈ pairs, ∀ m ∈ mems, ∃ rd, alookup dbs m.original = some rd
        ∧ (alookup rd pr.1).isSome = true ∧ (alookup rd pr.2).isSome = true) →
      ∃ md', weightedPass dbs mems sumByCol pairs md = .ok md' := by
  intro pairs
  induction pairs with
  | nil => intro md _ _; exact ⟨md, rfl⟩
  | cons pr rest ih =>
    intro md hsw hp
    rcases pr with ⟨c, wc⟩
    obtain ⟨w, hw⟩ := Option.isSome_iff_exists.mp (hsw (c, wc) (by simp))
    simp only [weightedPass, hw, ok_bind]
    by_cases hpos : 0 < w
    · rw [if_pos hpos]
      obtain ⟨ts, hts⟩ := mapM_weightedTerm_isOk dbs c wc mems (hp (c, wc) (by simp))
      rw [hts, ok_bind]
      exact ih _ (fun pr2 h2 => hsw pr2 (by simp [h2])) (fun pr2 h2 => hp pr2 (by simp [h2]))
    · rw [if_neg hpos]
      exact ih md (fun pr2 h2 => hsw pr2 (by simp [h2])) (fun pr2 h2 => hp pr2 (by simp [h2]))

theorem averagePass_isOk (dbs : List (String × RowData)) (mems : List GroupMember) :
    ∀ (cols : List String) (md : RowData),
      (∀ c ∈ cols, colPresent dbs mems c) →
      ∃ md', averagePass dbs mems cols md = .ok md' := by
  intro cols
  induction cols with
  | nil => intro md _; exact ⟨md, rfl⟩
  | cons c rest ih =>
    intro md hp
    obtain ⟨q, hq⟩ := numericColSum_isOk dbs mems c (hp c (by simp))
    simp only [averagePass, hq, ok_bind]
    exact ih _ (fun c2 h2 => hp c2 (by simp [h2]))

theorem sumPass_isOk (dbs : List (String × RowData)) (mems : List GroupMember)
    (sumByCol : List (String × ℚ)) :
    ∀ (cols : List String) (md : RowData),
      (∀ c ∈ cols, colPresent dbs mems c) →
      ∃ md', sumPass dbs mems sumByCol cols md = .ok md' := by
  intro cols
  induction cols with
  | nil => intro md _; exact ⟨md, rfl⟩
  | cons c rest ih =>
    intro md hp
    cases hb : alookup sumByCol c with
    | some q =>
      simp only [sumPass, hb]
      exact ih _ (fun c2 h2 => hp c2 (by simp [h2]))
    | none =>
      obtain ⟨q, hq⟩ := numericColSum_isOk dbs mems c (hp c (by simp))
      simp only [sumPass, hb, hq, ok_bind]
      exact ih _ (fun c2 h2 => hp c2 (by simp [h2]))

/-- C1 (amended): if every column referenced by the weighted-average, average
or sum policies is present in every member's row, the merged-row computation
never raises (a present but non-numeric value simply contributes 0); a
referenced column that is absent from some member's row instead raises a
`KeyError` (see the counterexample). -/
theorem C1_present_columns_no_raise (dbs : List (String × RowData))
    (gc : SampleGroupingConfig) (mems : List GroupMember)
    (hpres : ∀ c ∈ referencedCols gc, colPresent dbs mems c) :
    isErr (computeMergedData dbs gc mems) = false := by
  have hfst : ∀ pr ∈ gc.cols_to_weighted_average, colPresent dbs mems pr.1 := by
    intro pr hpr
    apply hpres
    unfold referencedCols
    simp only [List.mem_append, List.mem_map]
    exact Or.inl (Or.inl (Or.inl ⟨pr, hpr, rfl⟩))
  have hsnd : ∀ pr ∈ gc.cols_to_weighted_average, colPresent dbs mems pr.2 := by
    intro pr hpr
    apply hpres
    unfold referencedCols
    simp only [List.mem_append, List.mem_map]
    exact Or.inl (Or.inl (Or.inr ⟨pr, hpr, rfl⟩))
  have havg : ∀ c ∈ gc.cols_to_average, colPresent dbs mems c := by
    intro c hc
    apply hpres
    unfold referencedCols
    simp only [List.mem_append]
    exact Or.inl (Or.inr hc)
  have hsum : ∀ c ∈ gc.cols_to_sum, colPresent dbs mems c := by
    intro c hc
    apply hpres
    unfold referencedCols
    simp only [List.mem_append]
    exact Or.inr hc
  obtain ⟨sumByCol, h1⟩ : ∃ d, (if gc.cols_to_weighted_average.isEmpty
      then Except.ok ([] : List (String × ℚ))
      else computeWeights dbs mems gc.cols_to_weighted_average) = .ok d := by
    by_cases he : gc.cols_to_weighted_average.isEmpty = true
    · rw [if_pos he]; exact ⟨[], rfl⟩
    · rw [if_neg he]
      apply mapM_weights_isOk dbs mems (initWeights gc.cols_to_weighted_average)
      intro kv hkv
      obtain ⟨pr, hpr, hpe⟩ := List.mem_map.mp (initWeights_keys _ kv hkv)
      rw [← hpe]
      exact hsnd pr hpr
  have hsw : ∀ pr ∈ gc.cols_to_weighted_average, (alookup sumByCol pr.2).isSome = true := by
    intro pr hpr
    by_cases he : gc.cols_to_weighted_average.isEmpty = true
    · rcases hl : gc.cols_to_weighted_average with _ | ⟨a, t⟩
      · rw [hl] at hpr; simp at hpr
      · rw [hl] at he; simp at he
    · rw [if_neg he] at h1
      have hin : alookup (initWeights gc.cols_to_weighted_average) pr.2 = some 0 := by
        rw [alookup_initWeights, if_pos (List.mem_map.mpr ⟨pr, hpr, rfl⟩)]
      have := computeWeights_mapM_lookup dbs mems
        (initWeights gc.cols_to_weighted_average) sumByCol h1 pr.2 (by rw [hin]; rfl)
      rw [this]
      rfl
  obtain ⟨md1, h2⟩ : ∃ d, (if gc.cols_to_weighted_average.isEmpty
      then Except.ok ([] : RowData)
      else weightedPass dbs mems sumByCol gc.cols_to_weighted_average []) = .ok d := by
    by_cases he : gc.cols_to_weighted_average.isEmpty = true
    · rw [if_pos he]; exact ⟨[], rfl⟩
    · rw [if_neg he]
      apply weightedPass_isOk dbs mems sumByCol gc.cols_to_weighted_average [] hsw
      intro pr hpr m hm
      obtain ⟨rd, hs, hc⟩ := hfst pr hpr m hm
      obtain ⟨rd2, hs2, hc2⟩ := hsnd pr hpr m hm
      rw [hs] at hs2
      cases hs2
      exact ⟨rd, hs, hc, hc2⟩
  obtain ⟨md2, h3⟩ : ∃ d, (if gc.cols_to_average.isEmpty then Except.ok md1
      else averagePass dbs mems gc.cols_to_average md1) = .ok d := by
    by_cases he : gc.cols_to_average.isEmpty = true
    · rw [if_pos he]; exact ⟨md1, rfl⟩
    · rw [if_neg he]
      exact averagePass_isOk dbs mems gc.cols_to_average md1 havg
  obtain ⟨md3, h4⟩ : ∃ d, (if gc.cols_to_sum.isEmpty then Except.ok md2
      else sumPass dbs mems sumByCol gc.cols_to_sum md2) = .ok d := by
    by_cases he : gc.cols_to_sum.isEmpty = true
    · rw [if_pos he]; exact ⟨md2, rfl⟩
    · rw [if_neg he]
      exact sumPass_isOk dbs mems sumByCol gc.cols_to_sum md2 hsum
  have hfinal : computeMergedData dbs gc mems = .ok md3 := by
    unfold computeMergedData
    by_cases he1 : gc.cols_to_weighted_average.isEmpty = true
    · rw [if_pos he1] at h1 h2
      cases h1
      cases h2
      simp only [he1, if_true, pure_bind]
      by_cases he2 : gc.cols_to_average.isEmpty = true
      · rw [if_pos he2] at h3
        cases h3
        simp only [he2, if_true, pure_bind]
        exact h4
      · rw [if_neg he2] at h3
        simp only [he2, Bool.false_eq_true, if_false]
        rw [h3, ok_bind]
        exact h4
    · rw [if_neg he1] at h1 h2
      simp only [he1, Bool.false_eq_true, if_false]
      rw [h1, ok_bind, h2, ok_bind]
      by_cases he2 : gc.cols_to_average.isEmpty = true
      · rw [if_pos he2] at h3
        cases h3
        simp only [he2, if_true, pure_bind]
        exact h4
      · rw [if_neg he2] at h3
        simp only [he2, Bool.false_eq_true, if_false]
        rw [h3, ok_bind]
        exact h4
  rw [hfinal]
  rfl

/-- Grouping-label configuration merging `s_1`/`s_2` into one group. -/
def mergePairsConfig : Config :=
  { trivialConfig with
    generalstats_sample_merge_groups :=
      [("rep", [.ext (some "remove") (some "_1") none, .ext (some "remove") (some "_2") none])] }

/-- Data with the weighted-average value column `cov` ABSENT from `s_2`. -/
def missingColData : List (String × RowData) :=
  [("s_1", [("cov", .num 10), ("reads", .num 100)]), ("s_2", [("reads", .num 300)])]

def weightedGC : SampleGroupingConfig := ⟨[("cov", "reads")], [], [], []⟩

/-- C1 (counterexample): with `s_1` and `s_2` grouped and weighted-average
pair `(cov, reads)`, the column `cov` missing from `s_2`'s row makes the
aggregation raise `KeyError("cov")` — it is NOT treated as non-numeric 0. -/
theorem C1_counterexample :
    group_samples_and_average_metrics mergePairsConfig "mod" missingColData weightedGC
      = .error (.keyError "cov") := by
  have hgroups : group_samples_names mergePairsConfig "mod" ["s_1", "s_2"]
      = .ok [("s", [⟨some "rep", "s (rep)", "s_1"⟩, ⟨some "rep", "s (rep)", "s_2"⟩])] := rfl
  show group_samples_names mergePairsConfig "mod" ["s_1", "s_2"] >>= _ = _
  rw [hgroups, ok_bind]
  simp +decide [mergeGroup, computeMergedData, computeWeights, initWeights, assocSet,
    numericColSum, numColStep, weightedPass, weightedTerm, lookupSample, lookupCol, alookup,
    toNum, missingColData, weightedGC, List.foldlM, List.mapM, List.mapM.loop, bind,
    Except.bind, pure, Except.pure, Except.map]
  norm_num

/-- C1 (witness): `C1_present_columns_no_raise` at the 17.5 example, where
both referenced columns are present in both member rows. -/
theorem C1_witness :
    isErr (computeMergedData wavgData wavgGC wavgMems) = false :=
  C1_present_columns_no_raise wavgData wavgGC wavgMems (by
    intro c hc m hm
    simp [referencedCols, wavgGC] at hc
    simp [wavgMems] at hm
    rcases hm with hm | hm <;> rcases hc with hc | hc <;> subst hm <;> subst hc <;>
      exact ⟨_, rfl, rfl⟩)

/-! C8: the grouping computation partitions the input sample names. -/

/-- All values stored in an insertion-ordered bucket dictionary. -/
def bucketVals {κ α : Type} (d : List (κ × List α)) : List α :=
  (d.map (fun kv => kv.2)).flatten

/-- Every original sample name across all groups' member lists. -/
def allOriginals (gs : List (String × List GroupMember)) : List String :=
  (gs.map (fun g => g.2.map (fun m => m.original))).flatten

theorem bucketVals_bucketAdd {κ α : Type} [DecidableEq κ] :
    ∀ (d : List (κ × List α)) (k : κ) (v : α),
      List.Perm (bucketVals (bucketAdd d k v)) (v :: bucketVals d) := by
  intro d
  induction d with
  | nil => intro k v; simp [bucketAdd, bucketVals]
  | cons kv rest ih =>
    intro k v
    rcases kv with ⟨k', vs⟩
    by_cases hk : k' = k
    · rw [show bucketAdd ((k', vs) :: rest) k v = (k', vs ++ [v]) :: rest from by
        simp [bucketAdd, hk]]
      show List.Perm ((vs ++ [v]) ++ bucketVals rest) (v :: (vs ++ bucketVals rest))
      exact List.Perm.append_right (bucketVals rest) (List.perm_append_singleton v vs)
    · rw [show bucketAdd ((k', vs) :: rest) k v = (k', vs) :: bucketAdd rest k v from by
        simp [bucketAdd, hk]]
      show List.Perm (vs ++ bucketVals (bucketAdd rest k v)) (v :: (vs ++ bucketVals rest))
      exact (List.Perm.append_left vs (ih k v)).trans List.perm_middle

theorem bucketVals_foldl {κ α β : Type} [DecidableEq κ] (key : β → κ) (val : β → α) :
    ∀ (l : List β) (d0 : List (κ × List α)),
      List.Perm (bucketVals (l.foldl (fun d x => bucketAdd d (key x) (val x)) d0))
        (l.map val ++ bucketVals d0) := by
  intro l
  induction l with
  | nil => intro d0; simp
  | cons x rest ih =>
    intro d0
    rw [List.foldl_cons]
    have h1 := ih (bucketAdd d0 (key x) (val x))
    have h2 := List.Perm.append_left (rest.map val) (bucketVals_bucketAdd d0 (key x) (val x))
    have h3 : List.Perm (rest.map val ++ (val x :: bucketVals d0))
        (val x :: (rest.map val ++ bucketVals d0)) := List.perm_middle
    exact (h1.trans h2).trans h3

theorem bucketVals_foldl_nested :
    ∀ (byLabel : List (Option String × List (String × String)))
      (d0 : List (String × List (Option String × String))),
      List.Perm
        (bucketVals (byLabel.foldl
          (fun d lg => lg.2.foldl (fun d gn => bucketAdd d gn.1 (lg.1, gn.2)) d) d0))
        ((byLabel.map (fun lg => lg.2.map (fun gn => (lg.1, gn.2)))).flatten
          ++ bucketVals d0) := by
  intro byLabel
  induction byLabel with
  | nil => intro d0; simp
  | cons lg rest ih =>
    intro d0
    rw [List.foldl_cons]
    have h1 := ih (lg.2.foldl (fun d gn => bucketAdd d gn.1 (lg.1, gn.2)) d0)
    have hinner := bucketVals_foldl (fun gn : String × String => gn.1)
      (fun gn : String × String => ((lg.1, gn.2) : Option String × String)) lg.2 d0
    have h2 := List.Perm.append_left
      ((rest.map (fun lg => lg.2.map (fun gn => (lg.1, gn.2)))).flatten) hinner
    have h3 : List.Perm
        ((rest.map (fun lg => lg.2.map (fun gn => (lg.1, gn.2)))).flatten
          ++ (lg.2.map (fun gn => (lg.1, gn.2)) ++ bucketVals d0))
        (lg.2.map (fun gn => (lg.1, gn.2))
          ++ ((rest.map (fun lg => lg.2.map (fun gn => (lg.1, gn.2)))).flatten
            ++ bucketVals d0)) := by
      rw [← List.append_assoc, ← List.append_assoc]
      exact List.Perm.append_right _ List.perm_append_comm
    have hfinal := (h1.trans h2).trans h3
    simpa [List.append_assoc] using hfinal

theorem map_flatten_eq {α β : Type} (f : α → β) :
    ∀ L : List (List α), (L.flatten).map f = (L.map (fun l => l.map f)).flatten := by
  intro L
  induction L with
  | nil => rfl
  | cons a t ih => simp [ih]

theorem allOriginals_finalize (byName : List (String × List (Option String × String))) :
    allOriginals (byName.map (fun g =>
      (g.1, g.2.map (fun ln =>
        (⟨ln.1, if g.2.length = 1 then g.1 else g.1 ++ " (" ++ pyShowOptStr ln.1 ++ ")",
          ln.2⟩ : GroupMember)))))
      = (bucketVals byName).map (fun x => x.2) := by
  induction byName with
  | nil => rfl
  | cons g rest ih =>
    simp only [allOriginals, bucketVals, List.map_cons, List.flatten_cons, List.map_append,
      List.map_map] at ih ⊢
    rw [ih]
    simp [Function.comp]

theorem flatten_pairs_snd (bl : List (Option String × List (String × String))) :
    ((bl.map (fun lg => lg.2.map (fun gn => (lg.1, gn.2)))).flatten).map
      (fun x : Option String × String => x.2)
    = (bucketVals bl).map (fun x : String × String => x.2) := by
  induction bl with
  | nil => rfl
  | cons lg rest ih =>
    simp only [bucketVals, List.map_cons, List.flatten_cons, List.map_append,
      List.map_map] at ih ⊢
    rw [ih]
    simp [Function.comp]

theorem allOriginals_buildGroups (resolved : List (Option String × String × String)) :
    List.Perm (allOriginals (buildGroups resolved)) (resolved.map (fun t => t.2.2)) := by
  have h3 : allOriginals (buildGroups resolved)
      = (bucketVals (groupByNameOf resolved)).map (fun x => x.2) :=
    allOriginals_finalize (groupByNameOf resolved)
  have h2 : List.Perm (bucketVals (groupByNameOf resolved))
      (((groupByLabelOf resolved).map
        (fun lg => lg.2.map (fun gn => (lg.1, gn.2)))).flatten) := by
    have hh := bucketVals_foldl_nested (groupByLabelOf resolved) []
    rw [show bucketVals ([] : List (String × List (Option String × String))) = []
      from rfl, List.append_nil] at hh
    exact hh
  have h2m := h2.map (fun x : Option String × String => x.2)
  rw [flatten_pairs_snd] at h2m
  have h1 : List.Perm (bucketVals (groupByLabelOf resolved))
      (resolved.map (fun t => t.2)) := by
    have hh := bucketVals_foldl (fun t : Option String × String × String => t.1)
      (fun t : Option String × String × String => t.2) resolved []
    rw [show bucketVals ([] : List (Option String × List (String × String))) = []
      from rfl, List.append_nil] at hh
    exact hh
  have h1m := h1.map (fun x : String × String => x.2)
  rw [List.map_map] at h1m
  rw [h3]
  exact h2m.trans h1m

theorem mapM_resolve_originals (cfg : Config) (anchor : String) :
    ∀ (l : List String) (res : List (Option String × String × String)),
      l.mapM (fun n => do
        let gl ← groups_for_sample cfg anchor n
        pure (gl.2, gl.1, n)) = .ok res →
      res.map (fun t => t.2.2) = l := by
  intro l
  induction l with
  | nil =>
    intro res h
    rw [List.mapM_nil] at h
    cases h
    rfl
  | cons n rest ih =>
    intro res h
    rw [List.mapM_cons] at h
    cases hg : groups_for_sample cfg anchor n with
    | error e => rw [hg, error_bind] at h; cases h
    | ok gl =>
      rw [hg, ok_bind] at h
      simp only [pure_bind] at h
      cases hrest : rest.mapM (fun n => do
          let gl ← groups_for_sample cfg anchor n
          pure (gl.2, gl.1, n)) with
      | error e => rw [hrest, error_bind] at h; cases h
      | ok rs =>
        rw [hrest, ok_bind] at h
        have hres : res = (gl.2, gl.1, n) :: rs := by
          cases h
          rfl
        subst hres
        simp [ih rs hrest]

/-- C8: for every input list of sample names and every grouping configuration,
the mapping produced by `group_samples_names` partitions the input: the
multiset of original names across all groups' member lists is exactly the
input, so with distinct input names every name appears in exactly one member
list, exactly once. -/
theorem C8_grouping_partitions (cfg : Config) (anchor : String) (samples : List String)
    (gs : List (String × List GroupMember))
    (hok : group_samples_names cfg anchor samples = .ok gs) :
    List.Perm (allOriginals gs) samples
    ∧ (samples.Nodup → ∀ s ∈ samples, (allOriginals gs).count s = 1) := by
  have hperm : List.Perm (allOriginals gs) samples := by
    unfold group_samples_names at hok
    cases hres : (pySorted samples).mapM (fun n => do
        let gl ← groups_for_sample cfg anchor n
        pure (gl.2, gl.1, n)) with
    | error e => rw [hres, error_bind] at hok; cases hok
    | ok resolved =>
      rw [hres, ok_bind] at hok
      have hgs : gs = buildGroups resolved := by
        have h2 : (Except.ok (buildGroups resolved) : Except PyErr _) = .ok gs := hok
        cases h2
        rfl
      subst hgs
      have hA := allOriginals_buildGroups resolved
      have hB : resolved.map (fun t => t.2.2) = pySorted samples :=
        mapM_resolve_originals cfg anchor (pySorted samples) resolved hres
      have hC : List.Perm (pySorted samples) samples :=
        List.perm_insertionSort pyStrLe samples
      rw [hB] at hA
      exact hA.trans hC
  refine ⟨hperm, fun hnd s hs => ?_⟩
  rw [hperm.count_eq]
  exact List.count_eq_one_of_mem hnd hs

/-- C8 (witness): `C8_grouping_partitions` at the grouping of
`["foo", "foo_R1"]` from the C4 counterexample: both original names appear
exactly once across the (single, shared) member list. -/
theorem C8_witness :
    List.Perm (allOriginals [("foo",
      [⟨none, "foo (None)", "foo"⟩, ⟨some "lbl", "foo (lbl)", "foo_R1"⟩])])
      ["foo", "foo_R1"]
    ∧ (["foo", "foo_R1"].Nodup → ∀ s ∈ ["foo", "foo_R1"],
      (allOriginals [("foo",
        [⟨none, "foo (None)", "foo"⟩, ⟨some "lbl", "foo (lbl)", "foo_R1"⟩])]).count s = 1) :=
  C8_grouping_partitions removeR1Config "mod" ["foo", "foo_R1"] _ rfl
